import Mathlib

/-!
Shallow embedding of the TSQC quasi-clique solver (Rust sources:
`graph.rs`, `solution.rs`, `tabu.rs`, `construct.rs`, `neighbour.rs`,
`diversify.rs`, `restart.rs`, `maxk.rs`, `params.rs`) together with
theorems settling the frozen claims about its specification.

Modelling conventions, used uniformly below:
* `usize` arithmetic is modelled by `Nat`; Rust release-mode wrapping
  subtraction appears only where the source itself guarantees the
  subtrahend is smaller, and is modelled by truncating `Nat` subtraction.
* `f64` quantities (densities, tenure formulas, thresholds) are modelled
  by exact rational arithmetic (`ℚ`).  Every concrete instance used in a
  counterexample below is chosen far from any rounding boundary, so the
  exact-rational value of each comparison agrees with the `f64` value the
  Rust code computes.  `f64::EPSILON` is exactly `2⁻⁵²`, kept as `epsQ`.
* Rust panics (failed `assert!`, out-of-range index, `unwrap` on `None`,
  `f64::clamp` with `min > max`) are modelled by returning `none`; a
  function that cannot panic returns its value directly.
* The thread-through `&mut rng` is modelled by an abstract state type `ρ`
  with an explicit operation record `RngOps`; every random draw consumes
  and returns the state, in the same order as the Rust calls.
* Loops without a structural termination measure receive a fuel
  parameter; exhausted fuel is modelled as `none` and all theorems about
  returned values hold for every fuel.
-/

namespace TSQC

/-! ### Random-source interface (models `rand::Rng` as used by the code) -/

/-- Abstract random source: the four `rand` operations the solver uses.
`genRange m` models `rng.gen_range(0..m)`, `genRangeIncl c` models
`rng.gen_range(0..=c)`, `genBool q` models `rng.gen_bool(q)`, and
`shuffle` models `SliceRandom::shuffle`. -/
structure RngOps (ρ : Type) where
  genRange : ℕ → ρ → ℕ × ρ
  genRangeIncl : ℕ → ρ → ℕ × ρ
  genBool : ℚ → ρ → Bool × ρ
  shuffle : List ℕ → ρ → List ℕ × ρ

/-- Well-formedness of a random source: `gen_range(0..m)` lands in range and
`shuffle` permutes.  These are the only distributional facts the solver's
structural invariants depend on. -/
structure RngLaws {ρ : Type} (O : RngOps ρ) : Prop where
  genRange_lt : ∀ m r, 0 < m → (O.genRange m r).1 < m
  shuffle_perm : ∀ l r, (O.shuffle l r).1.Perm l

/-- A concrete deterministic random source (always draws 0, never reorders),
used to evaluate the embedding on concrete inputs. -/
def trivialOps : RngOps Unit where
  genRange := fun _ _ => (0, ())
  genRangeIncl := fun _ _ => (0, ())
  genBool := fun _ _ => (false, ())
  shuffle := fun l _ => (l, ())

/-! ### Graph (`graph.rs`) -/

/-- `Graph`: `n` vertices, adjacency predicate (row-major bit rows in the
source; a `Bool`-valued function here).  Mirrors `graph.rs`. -/
structure Graph where
  n : ℕ
  adj : ℕ → ℕ → Bool

/-- `Graph::from_edge_list` (0-based, undirected, mirrors `add_edge`'s
symmetric bit sets). -/
def mkGraph (n : ℕ) (edges : List (ℕ × ℕ)) : Graph where
  n := n
  adj := fun u v => edges.any (fun e => (e.1 == u && e.2 == v) || (e.1 == v && e.2 == u))

/-- `Graph::degree`: popcount of row `v` (over the `n`-bit row). -/
def Graph.degree (g : Graph) (v : ℕ) : ℕ :=
  ((List.range g.n).filter (fun j => g.adj v j)).length

/-- `Graph::m`: number of edges, each counted once (pairs `i < j`). -/
def Graph.m (g : Graph) : ℕ :=
  ((List.range g.n).map (fun i =>
    ((List.range g.n).filter (fun j => i < j && g.adj i j)).length)).sum

/-! ### Solution (`solution.rs`) -/

/-- `Solution`: membership bitmap plus cached `size` and `edge_count`.
The borrowed `&Graph` is passed explicitly to each operation. -/
structure Solution where
  verts : List Bool
  edge_count : ℕ
  size : ℕ
deriving DecidableEq, Repr

/-- Bit test `self.vertices[v]` (false beyond the bitmap's length). -/
def Solution.memB (s : Solution) (v : ℕ) : Bool :=
  s.verts.getD v false

/-- `|N(v) ∩ S|`: the count the source computes as
`g.neigh_row(v).iter_ones().filter(|&j| sol.bitset()[j]).count()`. -/
def degInS (g : Graph) (s : Solution) (v : ℕ) : ℕ :=
  ((List.range g.n).filter (fun j => g.adj v j && s.memB j)).length

/-- `Solution::new`. -/
def Solution.empty (n : ℕ) : Solution where
  verts := List.replicate n false
  edge_count := 0
  size := 0

/-- `Solution::add` (no-op if present): count neighbours in `S` before
setting the bit, then `size += 1`, `edge_count += added`. -/
def Solution.add (g : Graph) (s : Solution) (v : ℕ) : Solution :=
  if s.memB v then s
  else
    { verts := s.verts.set v true
      edge_count := s.edge_count + degInS g s v
      size := s.size + 1 }

/-- `Solution::remove` (no-op if absent): count neighbours in `S` before
clearing the bit, then `size -= 1`, `edge_count -= removed`. -/
def Solution.remove (g : Graph) (s : Solution) (v : ℕ) : Solution :=
  if !s.memB v then s
  else
    { verts := s.verts.set v false
      edge_count := s.edge_count - degInS g s v
      size := s.size - 1 }

/-- `Solution::density` (an `f64` in the source; exact rational here):
`0` for `|S| < 2`, else `2·edges/(size·(size−1))`. -/
def Solution.densityQ (s : Solution) : ℚ :=
  if s.size < 2 then 0
  else 2 * (s.edge_count : ℚ) / ((s.size * (s.size - 1) : ℕ) : ℚ)

/-- Structural well-formedness the Rust type maintains by construction:
the bitmap has one bit per vertex and the cached size is its popcount. -/
def Solution.wf (g : Graph) (s : Solution) : Prop :=
  s.verts.length = g.n ∧ s.verts.count true = s.size

/-- `f64::EPSILON`, exactly `2⁻⁵²`; the tolerance in every density-vs-γ
comparison (`density() + f64::EPSILON >= gamma`). -/
def epsQ : ℚ := 1 / 2 ^ 52

/-! ### Parameters (`params.rs`) -/

/-- `Params` (the `f64` fields `gamma_target`, `heavy_prob` as `ℚ`);
`gamma` (the unused legacy heavy-perturbation fraction) is omitted. -/
structure Params where
  tenure_u : ℕ
  tenure_v : ℕ
  heavy_prob : ℚ
  gamma_target : ℚ
  stagnation_iter : ℕ
  max_iter : ℕ

/-- `Params::default` (gamma_target 0.90, L = 1000, I_max = 100000). -/
def Params.default : Params where
  tenure_u := 7
  tenure_v := 7
  heavy_prob := 1 / 10
  gamma_target := 9 / 10
  stagnation_iter := 1000
  max_iter := 100000

/-! ### DualTabu (`tabu.rs`) -/

/-- `DualTabu`: expiry arrays, global iteration counter, current tenures. -/
structure DualTabu where
  expiry_u : List ℕ
  expiry_v : List ℕ
  iter : ℕ
  tu : ℕ
  tv : ℕ
deriving DecidableEq, Repr

/-- `DualTabu::new`. -/
def DualTabu.new (n initial_tu initial_tv : ℕ) : DualTabu where
  expiry_u := List.replicate n 0
  expiry_v := List.replicate n 0
  iter := 0
  tu := max initial_tu 1
  tv := max initial_tv 1

/-- `DualTabu::step`. -/
def DualTabu.step (t : DualTabu) : DualTabu := { t with iter := t.iter + 1 }

/-- `DualTabu::is_tabu_u`: `expiry_u[v] > iter`. -/
def DualTabu.is_tabu_u (t : DualTabu) (v : ℕ) : Bool :=
  t.iter < t.expiry_u.getD v 0

/-- `DualTabu::is_tabu_v`: `expiry_v[v] > iter`. -/
def DualTabu.is_tabu_v (t : DualTabu) (v : ℕ) : Bool :=
  t.iter < t.expiry_v.getD v 0

/-- `DualTabu::forbid_u`: `expiry_u[v] = iter + tu`. -/
def DualTabu.forbid_u (t : DualTabu) (v : ℕ) : DualTabu :=
  { t with expiry_u := t.expiry_u.set v (t.iter + t.tu) }

/-- `DualTabu::forbid_v`: `expiry_v[v] = iter + tv`. -/
def DualTabu.forbid_v (t : DualTabu) (v : ℕ) : DualTabu :=
  { t with expiry_v := t.expiry_v.set v (t.iter + t.tv) }

/-- `DualTabu::reset`: zero both expiry arrays, keep `iter` and tenures. -/
def DualTabu.reset (t : DualTabu) : DualTabu :=
  { t with
    expiry_u := List.replicate t.expiry_u.length 0
    expiry_v := List.replicate t.expiry_v.length 0 }

/-- `DualTabu::update_tenures`.  The source's `(x as f64 * 0.6).floor()`
computations are modelled exactly as `3·x/5` in `Nat` division (for every
argument the solver produces, the `f64` result rounds to the same
integer), and `ceil(gamma * clique_edges) as usize` as `Nat.ceil` on `ℚ`. -/
def DualTabu.update_tenures {ρ : Type} (O : RngOps ρ) (t : DualTabu)
    (size_s edges : ℕ) (gamma : ℚ) (r : ρ) : DualTabu × ρ :=
  let clique_edges := if size_s < 2 then 0 else size_s * (size_s - 1) / 2
  let target_edges : ℕ := Nat.ceil (gamma * (clique_edges : ℚ))
  let deficit := target_edges - edges
  let l := min deficit 10
  let c := max (size_s / 40) 6
  let ru := O.genRangeIncl c r
  let rv := O.genRangeIncl (3 * c / 5) ru.2
  let base_v := 3 * (l + 1) / 5
  ({ t with tu := max (l + 1 + ru.1) 1, tv := max (base_v + rv.1) 1 }, rv.2)

/-! ### Swap neighbourhood (`neighbour.rs`) -/

/-- The critical threshold of `improve_once`:
`(current_density * ((k as f64) - 1.0)).floor() as usize`, modelled as the
rational floor clipped to `ℕ` (`as usize` maps the `-0.0` arising for
`k = 0` to `0`, as `Nat.floor` does for negatives). -/
def critThr (s : Solution) : ℕ :=
  Nat.floor (s.densityQ * ((s.size : ℚ) - 1))

/-- `critical_vertices`: members of `S` (ascending, as `iter_ones` yields
them) whose internal degree is below `crit_thr`. -/
def criticalVertices (g : Graph) (s : Solution) : List ℕ :=
  (List.range g.n).filter (fun u => s.memB u && decide (degInS g s u < critThr s))

/-- `gain_w`: neighbours of `w` inside `S` excluding `u`
(`filter(|&j| j != u && sol.bitset()[j])`). -/
def gainW (g : Graph) (s : Solution) (u w : ℕ) : ℕ :=
  ((List.range g.n).filter (fun j => g.adj w j && decide (j ≠ u) && s.memB j)).length

/-- The swap candidates scanned by the double loop of `improve_once`:
each critical `u` (outer, ascending) paired with each `w ∉ S`
(inner, ascending). -/
def candPairs (g : Graph) (s : Solution) : List (ℕ × ℕ) :=
  (criticalVertices g s).flatMap (fun u =>
    ((List.range g.n).filter (fun w => !s.memB w)).map (fun w => (u, w)))

/-- The density the scan attributes to a would-be swap:
`new_m = m - loss_u + gain_w` (a `usize` expression, hence `Nat`
subtraction) and `new_density = 2·new_m/(k(k−1))`, `0` if `k < 2`. -/
def swapDensity (g : Graph) (s : Solution) (u w : ℕ) : ℚ :=
  let new_m := s.edge_count - degInS g s u + gainW g s u w
  if s.size < 2 then 0
  else 2 * (new_m : ℚ) / ((s.size * (s.size - 1) : ℕ) : ℚ)

/-- Accumulator of the scan: `best_allowed` and `best_aspirant`,
each `(new_density, u, w)`. -/
abbrev ScanAcc := Option (ℚ × ℕ × ℕ) × Option (ℚ × ℕ × ℕ)

/-- `best.is_none() || new_density > best.unwrap().0`: whether the scan
replaces the recorded candidate (strict improvement only, so the first
candidate wins ties — deterministic scan order). -/
def accBetter (o : Option (ℚ × ℕ × ℕ)) (nd : ℚ) : Bool :=
  match o with
  | none => true
  | some b => decide (b.1 < nd)

/-- One step of the candidate scan (the body of the double loop in
`improve_once`, lines 62–102): a swap with `gain_w ≥ loss_u` is recorded
as allowed when neither `is_tabu_v(u)` nor `is_tabu_u(w)` holds, else as
aspirant when its density strictly exceeds `global_best_density`; a record
is replaced only on a strictly larger density. -/
def scanStep (g : Graph) (s : Solution) (tabu : DualTabu) (gbd : ℚ)
    (acc : ScanAcc) (uw : ℕ × ℕ) : ScanAcc :=
  if degInS g s uw.1 ≤ gainW g s uw.1 uw.2 then
    if !(tabu.is_tabu_v uw.1 || tabu.is_tabu_u uw.2) then
      if accBetter acc.1 (swapDensity g s uw.1 uw.2) then
        (some (swapDensity g s uw.1 uw.2, uw.1, uw.2), acc.2)
      else acc
    else
      if decide (gbd < swapDensity g s uw.1 uw.2) &&
          accBetter acc.2 (swapDensity g s uw.1 uw.2) then
        (acc.1, some (swapDensity g s uw.1 uw.2, uw.1, uw.2))
      else acc
  else acc

/-- The full candidate scan of `improve_once`. -/
def scanSwaps (g : Graph) (s : Solution) (tabu : DualTabu) (gbd : ℚ) : ScanAcc :=
  (candPairs g s).foldl (scanStep g s tabu gbd) (none, none)

/-- `chosen_move`: the best allowed swap if any, else the best aspirant. -/
def chooseSwap (g : Graph) (s : Solution) (tabu : DualTabu) (gbd : ℚ) :
    Option (ℕ × ℕ) :=
  match scanSwaps g s tabu gbd with
  | (some b, _) => some (b.2.1, b.2.2)
  | (none, some b) => some (b.2.1, b.2.2)
  | (none, none) => none

/-- The frequency bump of `improve_once`/the perturbations:
`freq[v] += 1; if freq[v] > thr { freq.fill(0) }`. -/
def bumpReset (thr : ℕ) (freq : List ℕ) (v : ℕ) : List ℕ :=
  let f1 := freq.set v (freq.getD v 0 + 1)
  if thr < f1.getD v 0 then List.replicate f1.length 0 else f1

/-- `improve_once` (`neighbour.rs`): one intensification step.  Returns
`(moved, sol, tabu, freq, rng)`.  When a swap `(u, w)` is chosen the code
performs `remove(u); add(w)`, bumps `freq[u]` and `freq[w]` with reset
threshold `p.stagnation_iter`, recomputes tenures from the new solution,
marks `forbid_v(u)`, `forbid_u(w)` and steps the iteration counter;
otherwise it only steps the counter. -/
def improve_once {ρ : Type} (O : RngOps ρ) (g : Graph) (p : Params)
    (sol : Solution) (tabu : DualTabu) (gbd : ℚ) (freq : List ℕ) (r : ρ) :
    Bool × Solution × DualTabu × List ℕ × ρ :=
  if (criticalVertices g sol).isEmpty then
    (false, sol, tabu.step, freq, r)
  else
    match chooseSwap g sol tabu gbd with
    | none => (false, sol, tabu.step, freq, r)
    | some (u, w) =>
      let sol1 := (sol.remove g u).add g w
      let freq1 := bumpReset p.stagnation_iter freq u
      let freq2 := bumpReset p.stagnation_iter freq1 w
      let t1 := tabu.update_tenures O sol1.size sol1.edge_count p.gamma_target r
      (true, sol1, ((t1.1.forbid_v u).forbid_u w).step, freq2, t1.2)

/-! ### Perturbations (`diversify.rs`) -/

/-- First element of `l` attaining the minimal key (Rust
`Iterator::min_by_key` returns the first of equal minima). -/
def minByKeyFirst (f : ℕ → ℕ) (l : List ℕ) : Option ℕ :=
  l.foldl (fun acc w =>
    match acc with
    | none => some w
    | some b => if f w < f b then some w else acc) none

/-- `⌈k^(1/2)⌉` for reals: least `m ≤ bound` with `x ≤ m^q` computed by
scan; callers pass a `bound` that always suffices, so the value is
`⌈x^(1/q)⌉`. -/
def ceilRoot (q x bound : ℕ) : ℕ :=
  (List.range (bound + 1)).findIdx (fun m => decide (x ≤ m ^ q))

/-- The low-degree threshold `h` of `heavy_perturbation` (step 2,
`diversify.rs` lines 48–61), for `k ≥ 2` (for `k = 1` the Rust
`f64::clamp(1.0, 0.0)` call panics; see `heavy_perturbation`).
The source computes `x.clamp(1.0, (k-1) as f64).ceil() as usize` with
`x = k^0.85` when `graph_density * k ≤ 1.0` (extremely sparse) and
`x = √k` otherwise; `ceil` of the clamp of a nonnegative real between the
integers `1` and `k−1` equals the clamp of the `ceil`, and
`graph_density·k ≤ 1` is exactly `2·m·k ≤ n(n−1)` (with density `0` when
`n < 2`).  `⌈k^0.85⌉ = ⌈k^(17/20)⌉` is the least `m` with `k¹⁷ ≤ m²⁰`. -/
def heavyThreshold (g : Graph) (k : ℕ) : ℕ :=
  let sparse : Bool :=
    if g.n < 2 then true else decide (2 * g.m * k ≤ g.n * (g.n - 1))
  let x := if sparse then ceilRoot 20 (k ^ 17) k else ceilRoot 2 k k
  min (max x 1) (k - 1)

/-- `heavy_perturbation` (`diversify.rs`): remove one random member, add
the first shuffled outsider with internal degree below `heavyThreshold`
(falling back to a minimal-internal-degree outsider), bump frequencies
with reset threshold `k`, recompute tenures, reset the tabu lists.
`none` models the panics (index on empty slice; `f64::clamp` with
`1.0 > (k-1) as f64`, i.e. `k = 1`). -/
def heavy_perturbation {ρ : Type} (O : RngOps ρ) (g : Graph) (p : Params)
    (sol : Solution) (tabu : DualTabu) (freq : List ℕ) (r : ρ) :
    Option (Solution × DualTabu × List ℕ × ρ) :=
  let k := sol.size
  if k = 0 then some (sol, tabu, freq, r)
  else
    let inside := (List.range g.n).filter (fun v => sol.memB v)
    let sh := O.shuffle inside r
    match sh.1 with
    | [] => none
    | u :: _ =>
      let sol1 := sol.remove g u
      if k < 2 then none
      else
        let h := heavyThreshold g k
        let outsiders := (List.range g.n).filter (fun v => !sol1.memB v)
        let osh := O.shuffle outsiders sh.2
        let vOpt :=
          match osh.1.find? (fun w => decide (degInS g sol1 w < h)) with
          | some w => some w
          | none => minByKeyFirst (fun w => degInS g sol1 w) osh.1
        match vOpt with
        | none => none
        | some v =>
          let sol2 := sol1.add g v
          let freq2 := bumpReset k (bumpReset k freq u) v
          let t1 := tabu.update_tenures O sol2.size sol2.edge_count p.gamma_target osh.2
          some (sol2, t1.1.reset, freq2, t1.2)

/-- `mild_perturbation` (`diversify.rs`): remove the first minimal-degree
strictly-critical member (falling back to the first minimal-degree
member), add a random outsider of maximal internal degree, bump
frequencies with reset threshold `sol.size()` (evaluated after the swap),
recompute tenures, reset the tabu lists. -/
def mild_perturbation {ρ : Type} (O : RngOps ρ) (g : Graph) (p : Params)
    (sol : Solution) (tabu : DualTabu) (freq : List ℕ) (r : ρ) :
    Option (Solution × DualTabu × List ℕ × ρ) :=
  if sol.size = 0 then some (sol, tabu, freq, r)
  else
    let thr := critThr sol
    let members := (List.range g.n).filter (fun v => sol.memB v)
    let uOpt :=
      match minByKeyFirst (fun u => degInS g sol u)
          (members.filter (fun u => decide (degInS g sol u < thr))) with
      | some u => some u
      | none => minByKeyFirst (fun u => degInS g sol u) members
    match uOpt with
    | none => none
    | some u =>
      let sol1 := sol.remove g u
      let outsiders := (List.range g.n).filter (fun w => !sol1.memB w)
      let maxE := (outsiders.map (fun w => degInS g sol1 w)).foldl max 0
      let best := outsiders.filter (fun w => degInS g sol1 w == maxE)
      let sh := O.shuffle best r
      match sh.1 with
      | [] => none
      | v :: _ =>
        let sol2 := sol1.add g v
        let freq2 := bumpReset sol2.size (bumpReset sol2.size freq u) v
        let t1 := tabu.update_tenures O sol2.size sol2.edge_count p.gamma_target sh.2
        some (sol2, t1.1.reset, freq2, t1.2)

/-! ### Greedy-random constructor (`construct.rs`) -/

/-- The body of `greedy_random_k`'s while-loop: single pass computing
`(best_edges, cand)` exactly as the source (strictly better resets the
candidate list, ties append). -/
def grkCandidates (g : Graph) (sol : Solution) : ℕ × List ℕ :=
  (List.range g.n).foldl (fun acc v =>
    if sol.memB v then acc
    else
      let e := degInS g sol v
      if e > acc.1 then (e, [v])
      else if e == acc.1 then (acc.1, acc.2 ++ [v])
      else acc) (0, [])

/-- The while-loop of `greedy_random_k` (fuel-bounded; `cand.choose(rng)`
is `gen_range(0..len)` indexing, `unwrap` on an empty list is a panic). -/
def grkLoop {ρ : Type} (O : RngOps ρ) (g : Graph) (k : ℕ) :
    ℕ → Solution → ρ → Option (Solution × ρ)
  | 0, _, _ => none
  | fuel + 1, sol, r =>
    if sol.size < k then
      match grkCandidates g sol with
      | (_, []) => none
      | (_, c :: cs) =>
        let i := O.genRange (c :: cs).length r
        grkLoop O g k fuel (sol.add g ((c :: cs).getD i.1 0)) i.2
    else some (sol, r)

/-- `greedy_random_k` (`construct.rs`): random seed vertex, then greedily
add an outsider maximising `|N(·)∩S|` with uniform tie-breaks until
`|S| = k`.  `none` models the `assert!(k <= n)` panic and the
`gen_range(0..0)` panic for `n = 0`. -/
def greedy_random_k {ρ : Type} (O : RngOps ρ) (g : Graph) (k : ℕ) (r : ρ) :
    Option (Solution × ρ) :=
  if g.n < k then none
  else if g.n = 0 then none
  else
    let s := O.genRange g.n r
    grkLoop O g k (k + 1) ((Solution.empty g.n).add g s.1) s.2

/-! ### Fixed-k controller (`restart.rs`) -/

/-- The mutable state of `solve_fixed_k`'s inner loop: current solution,
tabu list, the shared long-term frequency vector, the per-run best and its
density, the stagnation counter, the global move counter, and the rng. -/
structure Inner (ρ : Type) where
  cur : Solution
  tabu : DualTabu
  freq : List ℕ
  runBest : Solution
  runBestD : ℚ
  stagn : ℕ
  totalIt : ℕ
  rng : ρ
deriving Repr

/-- Outcome of one iteration of the inner loop: early return of the
current solution (`return cur`), early return of the global best
(`return global_best`), a panic inside a perturbation, fall-through to
the restart logic (`break`), or another iteration (`continue`). -/
inductive InnerOut (ρ : Type) where
  | retCur (sol : Solution) (r : ρ)
  | retGlobal (r : ρ)
  | panicked
  | brk (st : Inner ρ)
  | cont (st : Inner ρ)

/-- Whether the inner loop runs another iteration after this outcome. -/
def InnerOut.isCont {ρ : Type} : InnerOut ρ → Bool
  | .cont _ => true
  | _ => false

/-- The state a `.cont` outcome continues with (`d` for other outcomes). -/
def InnerOut.contState {ρ : Type} (d : Inner ρ) : InnerOut ρ → Inner ρ
  | .cont st => st
  | _ => d

/-- The diversification block of the inner loop (`restart.rs` lines
106–118): Bernoulli choice between heavy and mild perturbation, reset
`stagn`, count the move, return `global_best` if the cap is reached,
else continue. -/
def diversifyCont {ρ : Type} (O : RngOps ρ) (g : Graph) (p : Params)
    (cur : Solution) (tabu : DualTabu) (freq : List ℕ)
    (runBest : Solution) (runBestD : ℚ) (totalIt : ℕ) (r : ρ) : InnerOut ρ :=
  match (if (O.genBool p.heavy_prob r).1 then
      heavy_perturbation O g p cur tabu freq (O.genBool p.heavy_prob r).2
    else
      mild_perturbation O g p cur tabu freq (O.genBool p.heavy_prob r).2) with
  | none => .panicked
  | some (cur1, tabu1, freq1, r1) =>
    if p.max_iter ≤ totalIt + 1 then .retGlobal r1
    else .cont ⟨cur1, tabu1, freq1, runBest, runBestD, 0, totalIt + 1, r1⟩

/-- The run-best/stagnation update after a successful move: strict
improvement replaces the run best and zeroes `stagn`, otherwise the
stagnation counter is incremented. -/
def runBestUpd (runBest : Solution) (runBestD : ℚ) (stagn : ℕ)
    (sol1 : Solution) : Solution × ℚ × ℕ :=
  if runBestD < sol1.densityQ then (sol1, sol1.densityQ, 0)
  else (runBest, runBestD, stagn + 1)

/-- One iteration of the inner loop of `solve_fixed_k` (`restart.rs`
lines 71–120): one `improve_once` step; on a move, count it, update the
run best and stagnation, return `cur` when γ-feasible, return
`global_best` at the iteration cap, continue below the stagnation limit;
at the limit (or when no move was possible and the limit is reached)
diversify; otherwise break to the restart logic. -/
def innerStep {ρ : Type} (O : RngOps ρ) (g : Graph) (p : Params)
    (st : Inner ρ) : InnerOut ρ :=
  match improve_once O g p st.cur st.tabu st.runBestD st.freq st.rng with
  | (moved, sol1, tabu1, freq1, r1) =>
    if moved then
      if p.gamma_target ≤ sol1.densityQ + epsQ then .retCur sol1 r1
      else if p.max_iter ≤ st.totalIt + 1 then .retGlobal r1
      else if (runBestUpd st.runBest st.runBestD st.stagn sol1).2.2 <
          p.stagnation_iter then
        .cont ⟨sol1, tabu1, freq1,
          (runBestUpd st.runBest st.runBestD st.stagn sol1).1,
          (runBestUpd st.runBest st.runBestD st.stagn sol1).2.1,
          (runBestUpd st.runBest st.runBestD st.stagn sol1).2.2,
          st.totalIt + 1, r1⟩
      else
        diversifyCont O g p sol1 tabu1 freq1
          (runBestUpd st.runBest st.runBestD st.stagn sol1).1
          (runBestUpd st.runBest st.runBestD st.stagn sol1).2.1
          (st.totalIt + 1) r1
    else
      if p.stagnation_iter ≤ st.stagn + 1 then
        diversifyCont O g p st.cur tabu1 st.freq st.runBest st.runBestD st.totalIt r1
      else .brk ⟨st.cur, tabu1, st.freq, st.runBest, st.runBestD, st.stagn + 1,
        st.totalIt, r1⟩

/-- Result of running the inner loop to completion (fuel-bounded). -/
inductive RunRes (ρ : Type) where
  | retSol (sol : Solution) (r : ρ)
  | retGlobal (r : ρ)
  | panicked
  | fuelOut
  | done (st : Inner ρ)

/-- Iterate `innerStep` until it stops continuing. -/
def innerLoop {ρ : Type} (O : RngOps ρ) (g : Graph) (p : Params) :
    ℕ → Inner ρ → RunRes ρ
  | 0, _ => .fuelOut
  | fuel + 1, st =>
    match innerStep O g p st with
    | .retCur sol r => .retSol sol r
    | .retGlobal r => .retGlobal r
    | .panicked => .panicked
    | .brk st1 => .done st1
    | .cont st1 => innerLoop O g p fuel st1

/-- The greedy frequency-guided extension loop of the restart block
(`restart.rs` lines 144–168): among outsiders of maximal graph degree,
prefer minimal long-term frequency, random tie-break.  `none` models the
`best_choices[0]` panic on an empty slice and exhausted fuel. -/
def rebuildLoop {ρ : Type} (O : RngOps ρ) (g : Graph) (k : ℕ) (freq : List ℕ) :
    ℕ → Solution → ρ → Option (Solution × ρ)
  | 0, _, _ => none
  | fuel + 1, sol, r =>
    if sol.size < k then
      let outs := (List.range g.n).filter (fun w => !sol.memB w)
      let maxDeg := (outs.map g.degree).foldl max 0
      let bestDeg := outs.filter (fun w => !decide (g.degree w < maxDeg))
      match bestDeg with
      | [] => some (sol, r)
      | b :: bs =>
        let minF := (bs.map (fun v => freq.getD v 0)).foldl min (freq.getD b 0)
        let choices := (b :: bs).filter (fun v => freq.getD v 0 == minF)
        let sh := O.shuffle choices r
        match sh.1 with
        | [] => none
        | c :: _ => rebuildLoop O g k freq fuel (sol.add g c) sh.2
    else some (sol, r)

/-- The frequency update after a restart construction (`restart.rs` lines
171–176): for each member of the new solution in ascending order, bump
its counter with reset threshold `k`. -/
def rebuildFreq (g : Graph) (k : ℕ) (sol : Solution) (freq : List ℕ) : List ℕ :=
  ((List.range g.n).filter (fun v => sol.memB v)).foldl (bumpReset k) freq

/-- The restart loop of `solve_fixed_k` (fuel-bounded on the number of
restarts and on each inner loop).  Arguments after the fuels: the initial
solution of the coming run, the global best and its density, the
frequency vector, the global move counter and the rng.  Returns the
solution together with the final rng state; `none` models a panic or
exhausted fuel. -/
def outerLoop {ρ : Type} (O : RngOps ρ) (g : Graph) (k : ℕ) (p : Params) :
    ℕ → ℕ → Solution → Solution → ℚ → List ℕ → ℕ → ρ → Option (Solution × ρ)
  | 0, _, _, _, _, _, _, _ => none
  | fo + 1, fi, bestSol, gBest, gBestD, freq, totalIt, r =>
    let t0 := (DualTabu.new g.n p.tenure_u p.tenure_v).update_tenures O
      bestSol.size bestSol.edge_count p.gamma_target r
    match innerLoop O g p fi
      ⟨bestSol, t0.1, freq, bestSol, bestSol.densityQ, 0, totalIt, t0.2⟩ with
    | .retSol sol r1 => some (sol, r1)
    | .retGlobal r1 => some (gBest, r1)
    | .panicked => none
    | .fuelOut => none
    | .done st =>
      let gb := if gBestD < st.runBestD then (st.runBest, st.runBestD) else (gBest, gBestD)
      if p.max_iter ≤ st.totalIt then some (gb.1, st.rng)
      else
        match st.freq with
        | [] => none
        | f0 :: fs =>
          let minF := fs.foldl min f0
          let cand := (List.range g.n).filter (fun v => st.freq.getD v 0 == minF)
          let sh := O.shuffle cand st.rng
          match sh.1 with
          | [] => none
          | first :: _ =>
            match rebuildLoop O g k st.freq (k + 1)
                ((Solution.empty g.n).add g first) sh.2 with
            | none => none
            | some (newSol, r2) =>
              let freq2 := rebuildFreq g k newSol st.freq
              if p.gamma_target ≤ newSol.densityQ + epsQ then some (newSol, r2)
              else outerLoop O g k p fo fi newSol gb.1 gb.2 freq2 st.totalIt r2

/-- `solve_fixed_k` (`restart.rs`): greedy-random initial solution,
immediate return if already γ-feasible, else the restart loop.  The two
fuels bound the number of restarts and the length of each inner loop;
every theorem below holds for all fuels. -/
def solve_fixed_k {ρ : Type} (O : RngOps ρ) (g : Graph) (k : ℕ) (p : Params)
    (fo fi : ℕ) (r : ρ) : Option (Solution × ρ) :=
  match greedy_random_k O g k r with
  | none => none
  | some (bestSol, r1) =>
    if p.gamma_target ≤ bestSol.densityQ + epsQ then some (bestSol, r1)
    else outerLoop O g k p fo fi bestSol bestSol bestSol.densityQ
      (List.replicate g.n 0) 0 r1

/-! ### Spec-side quantities for the one-swap upper bound (claim C2)

The following three definitions are modelled from the specification's
words (§4.6, U1-tight): `MinInS`, `MaxOutS` and
`UB = m(S) + max(MaxOutS − MinInS, 0)`; `requiredEdges` is
`⌈γ·k(k−1)/2⌉`.  They appear in no code path of `restart.rs`; they are
needed to state the claim that the inner loop aborts when
`UB < ⌈γ·k(k−1)/2⌉`. -/

/-- Spec: `MinInS = min_{u∈S} |N(u)∩S|` (0 if `S` is empty). -/
def minInS (g : Graph) (s : Solution) : ℕ :=
  match ((List.range g.n).filter (fun v => s.memB v)).map (fun u => degInS g s u) with
  | [] => 0
  | d :: ds => ds.foldl min d

/-- Spec: `MaxOutS = max_{v∉S} |N(v)∩S|` (0 if there are no outsiders). -/
def maxOutS (g : Graph) (s : Solution) : ℕ :=
  (((List.range g.n).filter (fun v => !s.memB v)).map (fun u => degInS g s u)).foldl max 0

/-- Spec: the one-swap upper bound `UB = m(S) + max(MaxOutS − MinInS, 0)`. -/
def oneSwapUB (g : Graph) (s : Solution) : ℕ :=
  s.edge_count + (maxOutS g s - minInS g s)

/-- Spec: `required = ⌈γ·k(k−1)/2⌉` edges for a γ-feasible size-`k` set. -/
def requiredEdges (gamma : ℚ) (k : ℕ) : ℕ :=
  Nat.ceil (gamma * ((k * (k - 1) / 2 : ℕ) : ℚ))

/-! ### Greedy-until-γ constructor (`construct.rs`) -/

/-- The expansion loop of `greedy_until_gamma` (fuel-bounded): shuffle the
outsiders, insert one of maximal internal degree, undo and stop when the
density would drop below `γ − ε`. -/
def gugLoop {ρ : Type} (O : RngOps ρ) (g : Graph) (gamma : ℚ) :
    ℕ → Solution → ρ → Option (Solution × ρ)
  | 0, _, _ => none
  | fuel + 1, sol, r =>
    let outsiders := (List.range g.n).filter (fun v => !sol.memB v)
    if outsiders.isEmpty then some (sol, r)
    else
      let sh := O.shuffle outsiders r
      let bestE := sh.1.foldl (fun a v => max a (degInS g sol v)) 0
      let cand := sh.1.filter (fun v => degInS g sol v == bestE)
      if cand.isEmpty then some (sol, r)
      else
        let i := O.genRange cand.length sh.2
        let v := cand.getD i.1 0
        let sol1 := sol.add g v
        if sol1.densityQ + epsQ < gamma then some (sol1.remove g v, i.2)
        else gugLoop O g gamma fuel sol1 i.2

/-- The last-chance scan of `greedy_until_gamma`: try each remaining
outsider once, keeping it only if the density stays at least `γ − ε`. -/
def gugScan (g : Graph) (gamma : ℚ) (order : List ℕ) (sol : Solution) : Solution :=
  order.foldl (fun s v =>
    let s1 := s.add g v
    if s1.densityQ + epsQ < gamma then s1.remove g v else s1) sol

/-- `greedy_until_gamma` (`construct.rs`): seed with the first shuffled
edge (numeric order inside the pair; the outer loop runs over the
shuffled order), or the first two shuffled vertices in the edgeless case,
then grow greedily while `γ`-feasible, with a final scan.  `none` models
the `assert!` panic for `γ ∉ [0,1]`, the `verts[0]`/`verts[1]` index
panics for `n < 2` in the edgeless case, and exhausted fuel. -/
def greedy_until_gamma {ρ : Type} (O : RngOps ρ) (g : Graph) (gamma : ℚ)
    (r : ρ) : Option (Solution × ρ) :=
  if ¬(0 ≤ gamma ∧ gamma ≤ 1) then none
  else
    let sh := O.shuffle (List.range g.n) r
    let verts := sh.1
    let edge :=
      verts.findSome? (fun u =>
        (verts.find? (fun v => decide (u < v) && g.adj u v)).map (fun v => (u, v)))
    let sol0 :=
      match edge, verts with
      | some e, _ => some (((Solution.empty g.n).add g e.1).add g e.2)
      | none, a :: b :: _ => some (((Solution.empty g.n).add g a).add g b)
      | none, _ => none
    match sol0 with
    | none => none
    | some s0 =>
      match gugLoop O g gamma (g.n + 1) s0 sh.2 with
      | none => none
      | some (s1, r1) =>
        let outs := (List.range g.n).filter (fun v => !s1.memB v)
        let sh2 := O.shuffle outs r1
        some (gugScan g gamma sh2.1 s1, sh2.2)

/-! ### Max-k driver (`maxk.rs`) -/

/-- `degree_prefix`: prefix sums of the degree sequence sorted
descending (`pref[i] = Σ_{j<i} deg_j`). -/
def degreePrefix (g : Graph) : List ℕ :=
  let degs := ((List.range g.n).map g.degree).mergeSort (fun a b => b ≤ a)
  degs.foldl (fun pref d => pref ++ [pref.getLastD 0 + d]) [0]

/-- `ub_edges`: `⌊½·Σ_{i<k} min(deg_i, k−1)⌋` from the degree prefix
table (`di = prefix[i+1] - prefix[i]`). -/
def ubEdges (pref : List ℕ) (k : ℕ) : ℕ :=
  (((List.range k).map (fun i =>
    min (pref.getD (i + 1) 0 - pref.getD i 0) (k - 1))).sum) / 2

/-- The `for k in k_lb..=n` loop of `solve_maxk`, fuel-bounded, also
returning (instrumentation for the theorems) the ascending list of sizes
`k` at which `solve_fixed_k` was actually invoked. -/
def maxkGo {ρ : Type} (O : RngOps ρ) (g : Graph) (p : Params)
    (pref : List ℕ) (fo fi : ℕ) :
    ℕ → ℕ → Solution → ρ → Option (Solution × ρ × List ℕ)
  | 0, _, _, _ => none
  | fuel + 1, k, best, r =>
    if g.n < k then some (best, r, [])
    else if k = best.size then maxkGo O g p pref fo fi fuel (k + 1) best r
    else
      let required := requiredEdges p.gamma_target k
      if ubEdges pref k < required then
        if best.size < k then some (best, r, [])
        else maxkGo O g p pref fo fi fuel (k + 1) best r
      else
        match solve_fixed_k O g k p fo fi r with
        | none => none
        | some (solk, r1) =>
          if p.gamma_target ≤ solk.densityQ + epsQ then
            (maxkGo O g p pref fo fi fuel (k + 1) solk r1).map
              (fun t => (t.1, t.2.1, k :: t.2.2))
          else if best.size < k then some (best, r1, [k])
          else
            (maxkGo O g p pref fo fi fuel (k + 1) best r1).map
              (fun t => (t.1, t.2.1, k :: t.2.2))

/-- `solve_maxk` (`maxk.rs`): initial `greedy_until_gamma` lower bound,
then ascending fixed-k searches with the degree upper-bound pruning.
Returns the best solution, the final rng state and the instrumented
invocation trace. -/
def solve_maxk {ρ : Type} (O : RngOps ρ) (g : Graph) (p : Params)
    (fo fi : ℕ) (r : ρ) : Option (Solution × ρ × List ℕ) :=
  match greedy_until_gamma O g p.gamma_target r with
  | none => none
  | some (best, r1) =>
    maxkGo O g p (degreePrefix g) fo fi (g.n + 2 - best.size) best.size best r1

/-! ### DIMACS parsing (`graph.rs::parse_dimacs`) -/

/-- Outcome of parsing: the source returns `io::Result<Graph>` whose `Err`
can only arise from the underlying reader (I/O), never from line content;
`panic` models the `unwrap()` aborts on malformed numeric fields. -/
inductive DimacsResult where
  | ok (n : ℕ) (edges : List (ℕ × ℕ))
  | panic
deriving DecidableEq, Repr

/-- Helper of `splitWs`: accumulate the current word (reversed). -/
def wordsAux : List Char → List Char → List (List Char)
  | [], cur => if cur.isEmpty then [] else [cur.reverse]
  | c :: rest, cur =>
    if c.isWhitespace then
      if cur.isEmpty then wordsAux rest [] else cur.reverse :: wordsAux rest []
    else wordsAux rest (c :: cur)

/-- Rust `str::split_whitespace` (on a character list; a `String` is its
character list in this model). -/
def splitWs (l : List Char) : List (List Char) := wordsAux l []

/-- Rust `str::trim`. -/
def trimChars (l : List Char) : List Char :=
  ((l.dropWhile Char.isWhitespace).reverse.dropWhile Char.isWhitespace).reverse

/-- Rust `str::parse::<usize>` on the plain tokens exercised here: all
decimal digits and nonempty, else `None` (the Rust parser additionally
accepts a leading `+`, which no DIMACS file contains). -/
def parseUsize (l : List Char) : Option ℕ :=
  if l.isEmpty then none
  else if l.all Char.isDigit then
    some (l.foldl (fun a c => a * 10 + (c.toNat - 48)) 0)
  else none

/-- Rust `str::starts_with(char)`. -/
def startsWithChar (l : List Char) (c : Char) : Bool :=
  match l with
  | [] => false
  | x :: _ => x == c

/-- `parse_dimacs` line loop (`graph.rs` lines 39–58), one line at a
time: comments and blanks skipped; a `p` line with ≥ 3 fields sets
`n = parts[2].parse().unwrap_or(0)` (malformed count silently becomes 0;
shorter `p` lines are silently ignored); an `e` line with ≥ 3 fields
pushes `(u−1, v−1)` where `parse().unwrap()` PANICS on a malformed
number (shorter `e` lines are silently ignored).  `String.toNat?` models
`str::parse::<usize>` on the digit strings exercised here. -/
def parseLine (acc : ℕ × List (ℕ × ℕ)) (line : List Char) :
    Option (ℕ × List (ℕ × ℕ)) :=
  let l := trimChars line
  if l.isEmpty || startsWithChar l 'c' then some acc
  else if startsWithChar l 'p' then
    let parts := splitWs l
    if 3 ≤ parts.length then
      some ((parseUsize (parts.getD 2 [])).getD 0, acc.2)
    else some acc
  else if startsWithChar l 'e' then
    let parts := splitWs l
    if 3 ≤ parts.length then
      match parseUsize (parts.getD 1 []), parseUsize (parts.getD 2 []) with
      | some u, some v => some (acc.1, acc.2 ++ [(u - 1, v - 1)])
      | _, _ => none
    else some acc
  else some acc

/-- `Graph::parse_dimacs` on a list of input lines (each a char list). -/
def parse_dimacs (lines : List (List Char)) : DimacsResult :=
  match lines.foldlM parseLine (0, []) with
  | some (n, edges) => .ok n edges
  | none => .panic

/-! ### Further spec-side definitions (for refinement claims) -/

/-- Spec: the critical-in set `A = {u∈S : |N(u)∩S| = MinInS}` (§4.4).
Modelled from the spec's words; the source's `critical_vertices` uses a
density threshold instead (see `criticalVertices`). -/
def specCriticalIn (g : Graph) (s : Solution) : List ℕ :=
  ((List.range g.n).filter (fun v => s.memB v)).filter
    (fun u => degInS g s u == minInS g s)

/-- Global edge density of the graph, `2m/(n(n−1))` (0 for `n < 2`),
as `heavy_perturbation` computes it. -/
def graphDensityQ (g : Graph) : ℚ :=
  if g.n < 2 then 0 else 2 * (g.m : ℚ) / ((g.n * (g.n - 1) : ℕ) : ℚ)

/-- Spec (claim C4): `h = ⌈k^0.85⌉` if the graph's global density is at
least `0.5`, else `⌈√k⌉`, clamped to `[1, k−1]`.  Modelled from the
claim's words, to be compared with the source's `heavyThreshold`. -/
def specHeavyThresholdC4 (g : Graph) (k : ℕ) : ℕ :=
  let x := if (1 : ℚ) / 2 ≤ graphDensityQ g then ceilRoot 20 (k ^ 17) k
    else ceilRoot 2 k k
  min (max x 1) (k - 1)

/-! ### Concrete instances used by counterexamples and witnesses -/

/-- Triangle graph `K₃`. -/
def g3 : Graph := mkGraph 3 [(0, 1), (0, 2), (1, 2)]

/-- 5 vertices: a triangle on `{1,2,3}`, vertices 0 and 4 isolated. -/
def g5 : Graph := mkGraph 5 [(1, 2), (1, 3), (2, 3)]

/-- 7 vertices: `K₄` on `{2,3,4,5}`, plus `0–2`, `0–3`, `1–4`, and vertex
6 adjacent to `{1,2,3,4,5}`. -/
def g7 : Graph := mkGraph 7
  [(2, 3), (2, 4), (2, 5), (3, 4), (3, 5), (4, 5),
   (0, 2), (0, 3), (1, 4), (6, 1), (6, 2), (6, 3), (6, 4), (6, 5)]

/-- Complete graph `K₁₀` (global density 1). -/
def gK10 : Graph := ⟨10, fun u v => decide (u < 10) && decide (v < 10) && decide (u ≠ v)⟩

/-- Two isolated vertices. -/
def g2e : Graph := mkGraph 2 []

/-- The subset `{0,1,2,3}` of `g5` (cached `m(S) = 3`, the triangle). -/
def sol4 : Solution := ⟨[true, true, true, true, false], 3, 4⟩

/-- The subset `{0,…,5}` of `g7` (cached `m(S) = 9`). -/
def sol6 : Solution := ⟨[true, true, true, true, true, true, false], 9, 6⟩

/-- The singleton subset `{0}` of `g3`. -/
def sol1of3 : Solution := ⟨[true, false, false], 0, 1⟩

/-- Parameters with `γ = 1` and the remaining defaults. -/
def pOne : Params :=
  { tenure_u := 7, tenure_v := 7, heavy_prob := 1 / 10, gamma_target := 1,
    stagnation_iter := 1000, max_iter := 100000 }

/-- A tabu state over 5 vertices in which vertex 0 is currently forbidden
to be removed (`expiry_v[0] = 1 > iter = 0`). -/
def tabuAsp : DualTabu := ⟨[0, 0, 0, 0, 0], [1, 0, 0, 0, 0], 0, 4, 2⟩

/-- The tabu list the first restart-loop iteration of
`solve_fixed_k trivialOps g5 4 pOne` constructs (fresh list, tenures
updated from the initial solution `sol4`). -/
def tabuC2 : DualTabu :=
  ((DualTabu.new 5 7 7).update_tenures trivialOps sol4.size sol4.edge_count
    pOne.gamma_target ()).1

/-- The inner-loop state at the start of the first run of
`solve_fixed_k trivialOps g5 4 pOne`: current = run-best = the
greedy-random initial solution `sol4`, zero frequency, zero counters —
exactly the state `outerLoop` passes to `innerLoop`. -/
def innerC2 : Inner Unit :=
  ⟨sol4, tabuC2, List.replicate 5 0, sol4, sol4.densityQ, 0, 0, ()⟩

/-! ### General helper lemmas -/

theorem foldl_inv {α β : Type} {P : α → Prop} {Q : β → Prop} (f : α → β → α)
    (hstep : ∀ a b, P a → Q b → P (f a b)) :
    ∀ (l : List β), (∀ b ∈ l, Q b) → ∀ a, P a → P (l.foldl f a) := by
  intro l
  induction l with
  | nil => intro _ a ha; simpa using ha
  | cons x xs ih =>
    intro hq a ha
    exact ih (fun b hb => hq b (List.mem_cons_of_mem x hb))
      (f a x) (hstep a x ha (hq x (List.mem_cons_self x xs)))

theorem foldl_max_eq_or_mem (l : List ℕ) : ∀ a, l.foldl max a = a ∨ l.foldl max a ∈ l := by
  induction l with
  | nil => intro a; left; rfl
  | cons x xs ih =>
    intro a
    rcases ih (max a x) with h | h
    · rcases max_choice a x with hm | hm
      · left; rw [List.foldl_cons, h, hm]
      · right; rw [List.foldl_cons, h, hm]; exact List.mem_cons_self x xs
    · right; exact List.mem_cons_of_mem x h

theorem foldl_min_eq_or_mem (l : List ℕ) : ∀ a, l.foldl min a = a ∨ l.foldl min a ∈ l := by
  induction l with
  | nil => intro a; left; rfl
  | cons x xs ih =>
    intro a
    rcases ih (min a x) with h | h
    · rcases min_choice a x with hm | hm
      · left; rw [List.foldl_cons, h, hm]
      · right; rw [List.foldl_cons, h, hm]; exact List.mem_cons_self x xs
    · right; exact List.mem_cons_of_mem x h

theorem minByKeyFirst_mem {f : ℕ → ℕ} {l : List ℕ} {x : ℕ}
    (h : minByKeyFirst f l = some x) : x ∈ l := by
  have main : ∀ a : Option ℕ, (∀ y, a = some y → y ∈ l) →
      (∀ y, l.foldl (fun acc w =>
        match acc with
        | none => some w
        | some b => if f w < f b then some w else acc) a = some y → y ∈ l) := by
    have := foldl_inv (P := fun a : Option ℕ => ∀ y, a = some y → y ∈ l)
      (Q := fun b : ℕ => b ∈ l)
      (fun acc w =>
        match acc with
        | none => some w
        | some b => if f w < f b then some w else acc)
      ?_ l (fun b hb => hb)
    · intro a ha; exact this a ha
    · intro a b ha hb
      match a with
      | none => intro y hy; cases hy; exact hb
      | some c =>
        by_cases hfb : f b < f c
        · intro y hy; simp only [hfb, if_pos] at hy; cases hy; exact hb
        · intro y hy; simp only [hfb, if_neg, not_false_iff] at hy
          exact ha y hy
  exact main none (by intro y hy; cases hy) x h

theorem getD_false_true {l : List Bool} {v : ℕ} (h : l.getD v false = true) :
    v < l.length ∧ l[v]? = some true := by
  rw [List.getD_eq_getElem?_getD] at h
  by_cases hv : v < l.length
  · refine ⟨hv, ?_⟩
    rw [List.getElem?_eq_getElem hv] at h ⊢
    simpa using h
  · rw [List.getElem?_eq_none (Nat.le_of_not_lt hv)] at h
    simp at h

theorem getD_set_self_lt {l : List Bool} {v : ℕ} (b : Bool) (hv : v < l.length) :
    (l.set v b).getD v false = b := by
  rw [List.getD_eq_getElem?_getD, List.getElem?_set_self hv]
  rfl

theorem getD_set_ne {l : List Bool} {v j : ℕ} (b : Bool) (h : v ≠ j) :
    (l.set v b).getD j false = l.getD j false := by
  rw [List.getD_eq_getElem?_getD, List.getElem?_set_ne h, ← List.getD_eq_getElem?_getD]

theorem count_true_set_true {l : List Bool} {v : ℕ}
    (h : l.getD v false = false) (hv : v < l.length) :
    (l.set v true).count true = l.count true + 1 := by
  have hget : l[v] = false := by
    rw [List.getD_eq_getElem?_getD, List.getElem?_eq_getElem hv] at h
    simpa using h
  rw [List.count_set (h := hv), hget]
  simp

theorem count_true_set_false {l : List Bool} {v : ℕ} (h : l.getD v false = true) :
    (l.set v false).count true = l.count true - 1 ∧ 1 ≤ l.count true := by
  obtain ⟨hv, hsome⟩ := getD_false_true h
  have hget : l[v] = true := by
    rw [List.getElem?_eq_getElem hv] at hsome; simpa using hsome
  constructor
  · rw [List.count_set (h := hv), hget]; simp
  · exact List.count_pos_iff.2 (List.getElem?_mem hsome)

theorem set_false_of_getD_false {l : List Bool} {v : ℕ}
    (h : l.getD v false = false) : l.set v false = l := by
  by_cases hv : v < l.length
  · have hget : l[v]? = some false := by
      rw [List.getD_eq_getElem?_getD, List.getElem?_eq_getElem hv] at h
      rw [List.getElem?_eq_getElem hv]
      simpa using h
    apply List.ext_getElem?
    intro n
    rw [List.getElem?_set]
    by_cases hn : v = n
    · subst hn; simp [hv, hget]
    · simp [hn]
  · exact List.set_eq_of_length_le (Nat.le_of_not_lt hv)

theorem exists_false_of_count_lt {l : List Bool} (h : l.count true < l.length) :
    ∃ v < l.length, l.getD v false = false := by
  rw [List.count_eq_countP, List.countP_eq_length_filter] at h
  have : ∃ x ∈ l, ¬(x == true) = true := List.length_filter_lt_length_iff_exists.1 h
  obtain ⟨x, hx, hxt⟩ := this
  have hxf : x = false := by
    cases x
    · rfl
    · simp at hxt
  subst hxf
  obtain ⟨n, hn⟩ := List.mem_iff_getElem?.1 hx
  have hlen : n < l.length := by
    by_contra hge
    rw [List.getElem?_eq_none (Nat.le_of_not_lt hge)] at hn
    cases hn
  exact ⟨n, hlen, by rw [List.getD_eq_getElem?_getD, hn]; rfl⟩

theorem bumpReset_le {L : ℕ} {freq : List ℕ} {v : ℕ}
    (h : ∀ x ∈ freq, x ≤ L) : ∀ x ∈ bumpReset L freq v, x ≤ L := by
  intro x hx
  unfold bumpReset at hx
  by_cases hc : L < (freq.set v (freq.getD v 0 + 1)).getD v 0
  · rw [if_pos hc] at hx
    have := (List.mem_replicate.1 hx).2
    omega
  · rw [if_neg hc] at hx
    by_cases hv : v < freq.length
    · rcases List.mem_or_eq_of_mem_set hx with hmem | heq
      · exact h x hmem
      · have hget : (freq.set v (freq.getD v 0 + 1)).getD v 0 = freq.getD v 0 + 1 := by
          rw [List.getD_eq_getElem?_getD, List.getElem?_set_self hv]; rfl
        omega
    · rw [List.set_eq_of_length_le (Nat.le_of_not_lt hv)] at hx
      exact h x hx

/-! ### Solution operation lemmas -/

theorem memB_lt_length {s : Solution} {v : ℕ} (h : s.memB v = true) :
    v < s.verts.length :=
  (getD_false_true h).1

theorem add_of_not_mem {g : Graph} {s : Solution} {v : ℕ} (h : s.memB v = false) :
    s.add g v = { verts := s.verts.set v true
                  edge_count := s.edge_count + degInS g s v
                  size := s.size + 1 } := by
  unfold Solution.add
  rw [h]
  rfl

theorem remove_of_mem {g : Graph} {s : Solution} {v : ℕ} (h : s.memB v = true) :
    s.remove g v = { verts := s.verts.set v false
                     edge_count := s.edge_count - degInS g s v
                     size := s.size - 1 } := by
  unfold Solution.remove
  rw [h]
  rfl

theorem add_wf {g : Graph} {s : Solution} {v : ℕ} (hwf : s.wf g) (hv : v < g.n)
    (h : s.memB v = false) : (s.add g v).wf g ∧ (s.add g v).size = s.size + 1 := by
  rw [add_of_not_mem h]
  obtain ⟨hlen, hcnt⟩ := hwf
  refine ⟨⟨?_, ?_⟩, rfl⟩
  · show (s.verts.set v true).length = g.n
    rw [List.length_set]; exact hlen
  · show (s.verts.set v true).count true = s.size + 1
    rw [count_true_set_true h (by omega)]
    omega

theorem remove_wf {g : Graph} {s : Solution} {v : ℕ} (hwf : s.wf g)
    (h : s.memB v = true) :
    (s.remove g v).wf g ∧ (s.remove g v).size = s.size - 1 ∧ 1 ≤ s.size := by
  rw [remove_of_mem h]
  obtain ⟨hlen, hcnt⟩ := hwf
  obtain ⟨hc1, hc2⟩ := count_true_set_false h
  refine ⟨⟨?_, ?_⟩, rfl, by omega⟩
  · show (s.verts.set v false).length = g.n
    rw [List.length_set]; exact hlen
  · show (s.verts.set v false).count true = s.size - 1
    rw [hc1]; omega

theorem remove_memB {g : Graph} {s : Solution} {u w : ℕ} (hu : s.memB u = true) :
    (s.remove g u).memB w = if w = u then false else s.memB w := by
  rw [remove_of_mem hu]
  show (s.verts.set u false).getD w false = _
  by_cases hw : w = u
  · subst hw
    rw [if_pos rfl, getD_set_self_lt false (memB_lt_length hu)]
  · rw [if_neg hw, getD_set_ne false (fun hc => hw hc.symm)]
    rfl

theorem swap_wf {g : Graph} {s : Solution} {u w : ℕ} (hwf : s.wf g)
    (hu : s.memB u = true) (hw : s.memB w = false) (hwn : w < g.n) :
    ((s.remove g u).add g w).wf g ∧ ((s.remove g u).add g w).size = s.size := by
  obtain ⟨hwf1, hsz1, hpos⟩ := remove_wf hwf hu
  have hmem1 : (s.remove g u).memB w = false := by
    rw [remove_memB hu]
    by_cases hc : w = u
    · rw [if_pos hc]
    · rw [if_neg hc]; exact hw
  obtain ⟨hwf2, hsz2⟩ := add_wf hwf1 hwn hmem1
  exact ⟨hwf2, by rw [hsz2, hsz1]; omega⟩

theorem degInS_remove {g : Graph} {s : Solution} {u w : ℕ} (hu : s.memB u = true) :
    degInS g (s.remove g u) w = gainW g s u w := by
  unfold degInS gainW
  congr 1
  apply List.filter_congr
  intro j _
  rw [remove_memB hu]
  by_cases hj : j = u
  · subst hj
    simp
  · simp only [if_neg hj]
    by_cases ha : g.adj w j
    · simp [ha, hj]
    · simp [ha]

/-- The executed swap's cached fields match the scanned candidate's
`new_m`, and its density is exactly the `new_density` the scan compared. -/
theorem swap_density_eq {g : Graph} {s : Solution} {u w : ℕ} (hwf : s.wf g)
    (hu : s.memB u = true) (hw : s.memB w = false) (hwn : w < g.n) :
    ((s.remove g u).add g w).densityQ = swapDensity g s u w ∧
    ((s.remove g u).add g w).edge_count =
      s.edge_count - degInS g s u + gainW g s u w := by
  have hmem1 : (s.remove g u).memB w = false := by
    rw [remove_memB hu]
    by_cases hc : w = u
    · rw [if_pos hc]
    · rw [if_neg hc]; exact hw
  have hedges : ((s.remove g u).add g w).edge_count =
      s.edge_count - degInS g s u + gainW g s u w := by
    rw [add_of_not_mem hmem1]
    show (s.remove g u).edge_count + degInS g (s.remove g u) w = _
    rw [degInS_remove hu, remove_of_mem hu]
  have hsize : ((s.remove g u).add g w).size = s.size :=
    (swap_wf hwf hu hw hwn).2
  refine ⟨?_, hedges⟩
  unfold Solution.densityQ swapDensity
  rw [hsize, hedges]

/-! ### Candidate-scan invariants (`improve_once` selection logic) -/

theorem scanStep_preserves {g : Graph} {s : Solution} {tabu : DualTabu} {gbd : ℚ}
    {u w : ℕ} (huw : (u, w) ∈ candPairs g s) {a1 a2 : Option (ℚ × ℕ × ℕ)}
    (h1 : ∀ b, a1 = some b → (b.2.1, b.2.2) ∈ candPairs g s ∧
      (tabu.is_tabu_v b.2.1 || tabu.is_tabu_u b.2.2) = false ∧
      b.1 = swapDensity g s b.2.1 b.2.2)
    (h2 : ∀ b, a2 = some b → (b.2.1, b.2.2) ∈ candPairs g s ∧
      b.1 = swapDensity g s b.2.1 b.2.2 ∧ gbd < b.1) :
    (∀ b, (scanStep g s tabu gbd (a1, a2) (u, w)).1 = some b →
      (b.2.1, b.2.2) ∈ candPairs g s ∧
      (tabu.is_tabu_v b.2.1 || tabu.is_tabu_u b.2.2) = false ∧
      b.1 = swapDensity g s b.2.1 b.2.2) ∧
    (∀ b, (scanStep g s tabu gbd (a1, a2) (u, w)).2 = some b →
      (b.2.1, b.2.2) ∈ candPairs g s ∧
      b.1 = swapDensity g s b.2.1 b.2.2 ∧ gbd < b.1) := by
  unfold scanStep
  by_cases hg : degInS g s (u, w).1 ≤ gainW g s (u, w).1 (u, w).2
  · rw [if_pos hg]
    by_cases ht : (!(tabu.is_tabu_v (u, w).1 || tabu.is_tabu_u (u, w).2)) = true
    · rw [if_pos ht]
      by_cases hb : accBetter (a1, a2).1 (swapDensity g s (u, w).1 (u, w).2) = true
      · rw [if_pos hb]
        constructor
        · intro b heq
          cases heq
          refine ⟨huw, ?_, rfl⟩
          simpa using ht
        · intro b heq
          exact h2 b heq
      · rw [if_neg hb]
        exact ⟨h1, h2⟩
    · rw [if_neg ht]
      by_cases ha : (decide (gbd < swapDensity g s (u, w).1 (u, w).2) &&
          accBetter (a1, a2).2 (swapDensity g s (u, w).1 (u, w).2)) = true
      · rw [if_pos ha]
        constructor
        · intro b heq
          exact h1 b heq
        · intro b heq
          cases heq
          refine ⟨huw, rfl, ?_⟩
          rw [Bool.and_eq_true] at ha
          exact of_decide_eq_true ha.1
      · rw [if_neg ha]
        exact ⟨h1, h2⟩
  · rw [if_neg hg]
    exact ⟨h1, h2⟩

theorem scanSwaps_spec (g : Graph) (s : Solution) (tabu : DualTabu) (gbd : ℚ) :
    (∀ b, (scanSwaps g s tabu gbd).1 = some b →
      (b.2.1, b.2.2) ∈ candPairs g s ∧
      (tabu.is_tabu_v b.2.1 || tabu.is_tabu_u b.2.2) = false ∧
      b.1 = swapDensity g s b.2.1 b.2.2) ∧
    (∀ b, (scanSwaps g s tabu gbd).2 = some b →
      (b.2.1, b.2.2) ∈ candPairs g s ∧
      b.1 = swapDensity g s b.2.1 b.2.2 ∧ gbd < b.1) := by
  unfold scanSwaps
  have := foldl_inv (P := fun acc : ScanAcc =>
      (∀ b, acc.1 = some b → (b.2.1, b.2.2) ∈ candPairs g s ∧
        (tabu.is_tabu_v b.2.1 || tabu.is_tabu_u b.2.2) = false ∧
        b.1 = swapDensity g s b.2.1 b.2.2) ∧
      (∀ b, acc.2 = some b → (b.2.1, b.2.2) ∈ candPairs g s ∧
        b.1 = swapDensity g s b.2.1 b.2.2 ∧ gbd < b.1))
    (Q := fun uw : ℕ × ℕ => uw ∈ candPairs g s)
    (scanStep g s tabu gbd) ?_ (candPairs g s) (fun b hb => hb) (none, none) ?_
  · exact this
  · rintro ⟨a1, a2⟩ ⟨u, w⟩ hP hQ
    exact scanStep_preserves hQ hP.1 hP.2
  · constructor
    · intro b hb; cases hb
    · intro b hb; cases hb

theorem candPairs_mem {g : Graph} {s : Solution} {u w : ℕ}
    (h : (u, w) ∈ candPairs g s) :
    s.memB u = true ∧ degInS g s u < critThr s ∧
    s.memB w = false ∧ w < g.n ∧ u < g.n := by
  unfold candPairs at h
  obtain ⟨a, ha, hb⟩ := List.mem_flatMap.1 h
  obtain ⟨b, hbmem, heq⟩ := List.mem_map.1 hb
  have hau : a = u ∧ b = w := by
    constructor
    · exact congrArg Prod.fst heq
    · exact congrArg Prod.snd heq
  obtain ⟨rfl, rfl⟩ := hau
  unfold criticalVertices at ha
  have h1 := List.mem_filter.1 ha
  have h2 := List.mem_filter.1 hbmem
  have hmem : s.memB a = true ∧ degInS g s a < critThr s := by
    have hh := h1.2
    rw [Bool.and_eq_true] at hh
    exact ⟨hh.1, of_decide_eq_true hh.2⟩
  refine ⟨hmem.1, hmem.2, ?_, ?_, ?_⟩
  · have := h2.2
    simpa using this
  · exact List.mem_range.1 h2.1
  · exact List.mem_range.1 h1.1

theorem chooseSwap_spec {g : Graph} {s : Solution} {tabu : DualTabu} {gbd : ℚ}
    {u w : ℕ} (h : chooseSwap g s tabu gbd = some (u, w)) :
    (u, w) ∈ candPairs g s ∧
    ((tabu.is_tabu_v u || tabu.is_tabu_u w) = true → gbd < swapDensity g s u w) := by
  unfold chooseSwap at h
  obtain ⟨hA, hB⟩ := scanSwaps_spec g s tabu gbd
  rcases hsc : scanSwaps g s tabu gbd with ⟨o1, o2⟩
  rw [hsc] at h hA hB
  match o1, o2, h with
  | some b, o2, h =>
    have hb := hA b rfl
    have heq : b.2.1 = u ∧ b.2.2 = w := by
      simp only at h
      cases h
      exact ⟨rfl, rfl⟩
    obtain ⟨h1, h2⟩ := heq
    rw [h1, h2] at hb
    refine ⟨hb.1, ?_⟩
    intro htabu
    rw [hb.2.1] at htabu
    cases htabu
  | none, some b, h =>
    have hb := hB b rfl
    have heq : b.2.1 = u ∧ b.2.2 = w := by
      simp only at h
      cases h
      exact ⟨rfl, rfl⟩
    obtain ⟨h1, h2⟩ := heq
    rw [h1, h2] at hb
    refine ⟨hb.1, ?_⟩
    intro _
    rw [← hb.2.1]
    exact hb.2.2

/-! ### Claim C1 — which vertices the swap neighbourhood may remove -/

unseal Rat.add Rat.mul Rat.sub Rat.inv in
/-- C1 (counterexample): on the graph `g7` with `S = {0,…,5}` (`|S| = 6 ≥ 2`)
and a fresh tabu list, `improve_once`'s selection chooses the swap
`(u, w) = (0, 6)`, removing vertex `0` whose internal degree is `2`,
while the minimum internal degree over `S` is `1`; so the removed vertex
is not in the spec's critical-in set `A = {u∈S : |N(u)∩S| = MinInS}`. -/
theorem C1_counterexample :
    chooseSwap g7 sol6 (DualTabu.new 7 7 7) 1 = some (0, 6) ∧
    degInS g7 sol6 0 = 2 ∧ minInS g7 sol6 = 1 ∧ 2 ≤ sol6.size ∧
    ¬(0 ∈ specCriticalIn g7 sol6) := by
  refine ⟨by decide, by decide, by decide, by decide, by decide⟩

/-- C1 (amended): in every `improve_once` step, the removed vertex `u`
ranges only over the source's critical set
`{u∈S : |N(u)∩S| < ⌊ρ(S)·(|S|−1)⌋}` (a density-threshold set, not the
argmin set `A`), and the incoming vertex is an outsider: every selected
swap removes a member with internal degree below `critThr` and inserts a
non-member. -/
theorem C1_swap_from_threshold_set :
    ∀ (g : Graph) (s : Solution) (tabu : DualTabu) (gbd : ℚ) (u w : ℕ),
    chooseSwap g s tabu gbd = some (u, w) →
    s.memB u = true ∧ degInS g s u < critThr s ∧ s.memB w = false := by
  intro g s tabu gbd u w h
  obtain ⟨hmem, _⟩ := chooseSwap_spec h
  obtain ⟨h1, h2, h3, _, _⟩ := candPairs_mem hmem
  exact ⟨h1, h2, h3⟩

unseal Rat.add Rat.mul Rat.sub Rat.inv in
/-- C1 (witness): the amended theorem applied to the concrete selection
on `g7`. -/
theorem C1_witness :
    sol6.memB 0 = true ∧ degInS g7 sol6 0 < critThr sol6 ∧ sol6.memB 6 = false :=
  C1_swap_from_threshold_set g7 sol6 (DualTabu.new 7 7 7) 1 0 6 (by decide)

/-! ### Claim C3 — aspiration correctness -/

/-- C3: for every call to `improve_once`, if the selected (hence executed)
swap `(u out, w in)` is tabu at selection time (`u ∈ tabu_v` or
`w ∈ tabu_u`), then the density of the solution after executing the swap
(`remove(u); add(w)`) strictly exceeds the `global_best_density` argument
passed in. -/
theorem C3_aspiration :
    ∀ (g : Graph) (s : Solution) (tabu : DualTabu) (gbd : ℚ) (u w : ℕ),
    s.wf g →
    chooseSwap g s tabu gbd = some (u, w) →
    (tabu.is_tabu_v u || tabu.is_tabu_u w) = true →
    gbd < ((s.remove g u).add g w).densityQ := by
  intro g s tabu gbd u w hwf h htabu
  obtain ⟨hmem, hasp⟩ := chooseSwap_spec h
  obtain ⟨h1, _, h3, h4, _⟩ := candPairs_mem hmem
  rw [(swap_density_eq hwf h1 h3 h4).1]
  exact hasp htabu

unseal Rat.add Rat.mul Rat.sub Rat.inv in
/-- C3 (witness): on `g5` with `S = {0,1,2,3}` and a tabu list banning the
removal of vertex `0`, the selected swap `(0, 4)` is tabu yet its
resulting density `1/2` strictly exceeds the passed-in best `2/5`. -/
theorem C3_witness :
    (tabuAsp.is_tabu_v 0 || tabuAsp.is_tabu_u 4) = true ∧
    (2 / 5 : ℚ) < ((sol4.remove g5 0).add g5 4).densityQ :=
  ⟨by decide,
    C3_aspiration g5 sol4 tabuAsp (2 / 5) 0 4 (by constructor <;> decide)
      (by decide) (by decide)⟩

/-! ### Claim C4 — the heavy-perturbation low-degree threshold -/

unseal Rat.add Rat.mul Rat.sub Rat.inv in
/-- C4 (counterexample): on the complete graph `K₁₀` (global density
`1 ≥ 0.5`) with `k = 9`, the code computes `h = ⌈√9⌉ = 3` (because
`density·k = 9 > 1` sends it to the `√k` branch), while the claim's
formula demands `⌈9^0.85⌉ = 7`; the two disagree. -/
theorem C4_counterexample :
    heavyThreshold gK10 9 = 3 ∧ specHeavyThresholdC4 gK10 9 = 7 ∧
    (1 / 2 : ℚ) ≤ graphDensityQ gK10 ∧
    heavyThreshold gK10 9 ≠ specHeavyThresholdC4 gK10 9 := by
  refine ⟨by decide, by decide, by decide, by decide⟩

/-- C4 (amended): in `heavy_perturbation` with `k = |S| ≥ 2`, the
low-degree threshold equals `⌈k^0.85⌉` when `2·m·k ≤ n(n−1)` (that is,
when the graph's global density times `k` is at most 1, or `n < 2`), and
`⌈√k⌉` otherwise, in both cases clamped to `[1, k−1]`; in particular the
threshold always lies in `[1, k−1]`. -/
theorem C4_heavy_threshold :
    ∀ (g : Graph) (k : ℕ), 2 ≤ k →
    heavyThreshold g k =
      (if g.n < 2 ∨ 2 * g.m * k ≤ g.n * (g.n - 1)
       then min (max (ceilRoot 20 (k ^ 17) k) 1) (k - 1)
       else min (max (ceilRoot 2 k k) 1) (k - 1)) ∧
    1 ≤ heavyThreshold g k ∧ heavyThreshold g k ≤ k - 1 := by
  intro g k hk
  have hbounds : ∀ x : ℕ, 1 ≤ min (max x 1) (k - 1) ∧ min (max x 1) (k - 1) ≤ k - 1 := by
    intro x
    constructor
    · have h1 : 1 ≤ max x 1 := le_max_right x 1
      have h2 : (1 : ℕ) ≤ k - 1 := by omega
      exact le_min h1 h2
    · exact min_le_right _ _
  unfold heavyThreshold
  by_cases hn : g.n < 2
  · have hsp : (if g.n < 2 then true else decide (2 * g.m * k ≤ g.n * (g.n - 1))) = true := by
      rw [if_pos hn]
    rw [hsp]
    simp only [if_pos (Or.inl hn), ite_true]
    exact ⟨by trivial, hbounds _⟩
  · have hsp : (if g.n < 2 then true else decide (2 * g.m * k ≤ g.n * (g.n - 1))) =
        decide (2 * g.m * k ≤ g.n * (g.n - 1)) := by
      rw [if_neg hn]
    rw [hsp]
    by_cases hd : 2 * g.m * k ≤ g.n * (g.n - 1)
    · rw [decide_eq_true hd]
      simp only [if_pos (Or.inr hd), ite_true]
      exact ⟨by trivial, hbounds _⟩
    · rw [decide_eq_false hd]
      have : ¬(g.n < 2 ∨ 2 * g.m * k ≤ g.n * (g.n - 1)) := by
        intro hc
        rcases hc with hc | hc
        · exact hn hc
        · exact hd hc
      simp only [if_neg this, Bool.false_eq_true, ite_false]
      exact ⟨by trivial, hbounds _⟩

/-- C4 (witness): the amended theorem evaluated on the triangle with
`k = 2`: the threshold is `1` and lies in `[1, 1]`. -/
theorem C4_witness :
    heavyThreshold g3 2 =
      (if g3.n < 2 ∨ 2 * g3.m * 2 ≤ g3.n * (g3.n - 1)
       then min (max (ceilRoot 20 (2 ^ 17) 2) 1) (2 - 1)
       else min (max (ceilRoot 2 2 2) 1) (2 - 1)) ∧
    1 ≤ heavyThreshold g3 2 ∧ heavyThreshold g3 2 ≤ 2 - 1 :=
  C4_heavy_threshold g3 2 (by decide)

/-! ### Claim C6 — frequency counters in `improve_once` -/

unseal Rat.add Rat.mul Rat.sub Rat.inv in
/-- C6 (counterexample): an `improve_once` call on `g5` that executes the
swap `(0, 4)` with `|S| = 4` and incoming frequency `[4,0,0,0,0]`: the
counter of the removed vertex rises to `5 > 4 = |S|`, yet the array is
not zeroed (the code's reset threshold is `stagnation_iter = 1000`, not
`|S|`), so an entry exceeding `|S|` survives. -/
theorem C6_counterexample :
    (improve_once trivialOps g5 pOne sol4 (DualTabu.new 5 7 7) (1 / 2)
      [4, 0, 0, 0, 0] ()).1 = true ∧
    (improve_once trivialOps g5 pOne sol4 (DualTabu.new 5 7 7) (1 / 2)
      [4, 0, 0, 0, 0] ()).2.2.2.1 = [5, 0, 0, 0, 1] ∧
    (improve_once trivialOps g5 pOne sol4 (DualTabu.new 5 7 7) (1 / 2)
      [4, 0, 0, 0, 0] ()).2.1.size = 4 ∧
    ¬(∀ x ∈ (improve_once trivialOps g5 pOne sol4 (DualTabu.new 5 7 7) (1 / 2)
      [4, 0, 0, 0, 0] ()).2.2.2.1,
        x ≤ (improve_once trivialOps g5 pOne sol4 (DualTabu.new 5 7 7) (1 / 2)
          [4, 0, 0, 0, 0] ()).2.1.size) := by
  refine ⟨by decide, by decide, by decide, by decide⟩

/-- C6 (amended): after every executed swap in `improve_once` the two
moved vertices' counters are incremented and the whole array is zeroed as
soon as any counter exceeds `p.stagnation_iter` (the stagnation limit,
not `|S|`); consequently, if every entry is at most `stagnation_iter`
before the step, every entry is at most `stagnation_iter` after it. -/
theorem C6_freq_bound :
    ∀ (ρ : Type) (O : RngOps ρ) (g : Graph) (p : Params) (sol : Solution)
      (tabu : DualTabu) (gbd : ℚ) (freq : List ℕ) (r : ρ),
    (∀ x ∈ freq, x ≤ p.stagnation_iter) →
    ∀ x ∈ (improve_once O g p sol tabu gbd freq r).2.2.2.1, x ≤ p.stagnation_iter := by
  intro ρ O g p sol tabu gbd freq r hfreq
  unfold improve_once
  by_cases hemp : (criticalVertices g sol).isEmpty = true
  · rw [if_pos hemp]
    exact hfreq
  · rw [if_neg hemp]
    rcases hcs : chooseSwap g sol tabu gbd with _ | ⟨u, w⟩
    · simp only [hcs]
      exact hfreq
    · simp only [hcs]
      exact bumpReset_le (bumpReset_le hfreq)

unseal Rat.add Rat.mul Rat.sub Rat.inv in
/-- C6 (witness): the amended bound applied to the concrete `improve_once`
call on `g5` starting from the all-zero frequency vector, evaluated at
the entry `1` (the counter of the removed vertex after the step). -/
theorem C6_witness : (1 : ℕ) ≤ pOne.stagnation_iter :=
  C6_freq_bound Unit trivialOps g5 pOne sol4 (DualTabu.new 5 7 7) (1 / 2)
    [0, 0, 0, 0, 0] () (by decide) 1 (by decide)

/-! ### Claim C8 — `add(v); remove(v)` round-trip -/

theorem add_memB {g : Graph} {s : Solution} {v w : ℕ} (hv : s.memB v = false)
    (hlen : v < s.verts.length) :
    (s.add g v).memB w = if w = v then true else s.memB w := by
  rw [add_of_not_mem hv]
  show (s.verts.set v true).getD w false = _
  by_cases hw : w = v
  · subst hw
    rw [if_pos rfl, getD_set_self_lt true hlen]
  · rw [if_neg hw, getD_set_ne true (fun hc => hw hc.symm)]
    rfl

theorem degInS_add_self {g : Graph} {s : Solution} {v : ℕ} (hv : s.memB v = false)
    (hlen : v < s.verts.length) (hadj : g.adj v v = false) :
    degInS g (s.add g v) v = degInS g s v := by
  unfold degInS
  congr 1
  apply List.filter_congr
  intro j _
  rw [add_memB hv hlen]
  by_cases hj : j = v
  · subst hj
    rw [hadj]
    simp
  · simp only [if_neg hj]

/-- C8 (counterexample): for a vertex already in the solution the
round-trip is not the identity: with `S = {0}` on the triangle,
`add(0)` is a no-op and `remove(0)` then deletes `0`, so the final state
differs from the initial one. -/
theorem C8_counterexample :
    (sol1of3.add g3 0).remove g3 0 ≠ sol1of3 ∧
    sol1of3.memB 0 = true ∧ 0 < g3.n := by
  refine ⟨by decide, by decide, by decide⟩

/-- C8 (amended): for every well-formed Solution on a simple graph and
every vertex `v < n` NOT currently in `S`, `add(v)` followed by
`remove(v)` restores the Solution bitwise: bitmap, cached size and cached
edge count all return to their prior values. -/
theorem C8_roundtrip :
    ∀ (g : Graph) (s : Solution) (v : ℕ), s.wf g → v < g.n →
    s.memB v = false → g.adj v v = false →
    (s.add g v).remove g v = s := by
  intro g s v hwf hv hmem hadj
  have hlen : v < s.verts.length := by
    rw [hwf.1]; exact hv
  have hmem1 : (s.add g v).memB v = true := by
    rw [add_memB hmem hlen, if_pos rfl]
  have hdeg : degInS g (s.add g v) v = degInS g s v := degInS_add_self hmem hlen hadj
  rw [remove_of_mem hmem1, hdeg, add_of_not_mem hmem]
  show Solution.mk ((s.verts.set v true).set v false)
    (s.edge_count + degInS g s v - degInS g s v) (s.size + 1 - 1) = s
  rw [List.set_set, set_false_of_getD_false hmem]
  have h1 : s.edge_count + degInS g s v - degInS g s v = s.edge_count := by omega
  have h2 : s.size + 1 - 1 = s.size := by omega
  rw [h1, h2]

/-- C8 (witness): the amended round-trip evaluated on the triangle with
`S = {0}` and `v = 1 ∉ S`. -/
theorem C8_witness : (sol1of3.add g3 1).remove g3 1 = sol1of3 :=
  C8_roundtrip g3 sol1of3 1 (by constructor <;> decide) (by decide)
    (by decide) (by decide)

/-! ### Claim C9 — malformed DIMACS input -/

/-- C9: the claim states `parse_dimacs` surfaces malformed header or edge
lines as an error result.  The code does not: a malformed edge line with
a non-numeric field PANICS (`parse().unwrap()`), aborting the process; a
malformed header count is silently replaced by `0`
(`parse().unwrap_or(0)`), and an edge line with missing fields is
silently skipped — none of these paths returns an error.  The evaluations
below exhibit all three divergences, plus a well-formed input for
contrast. -/
theorem C9_parse_dimacs_eval :
    parse_dimacs ["p edge 3 3".toList, "e x 2".toList] = DimacsResult.panic ∧
    parse_dimacs ["p edge x 3".toList] = DimacsResult.ok 0 [] ∧
    parse_dimacs ["p edge 3 3".toList, "e 1".toList] = DimacsResult.ok 3 [] ∧
    parse_dimacs ["c c".toList, "p edge 3 3".toList, "e 1 2".toList] =
      DimacsResult.ok 3 [(0, 1)] := by
  refine ⟨by decide, by decide, by decide, by decide⟩

/-! ### Claim C2 — the one-swap upper bound in the inner loop -/

unseal Rat.add Rat.mul Rat.sub Rat.inv in
/-- C2 (counterexample): in the run `solve_fixed_k trivialOps g5 4 pOne`
(γ = 1, so `required = 6`), the greedy-random construction yields
`S = {0,1,2,3}`; after the first neighbourhood step the current solution
is `{1,2,3,4}` with `UB = m(S) + max(MaxOutS − MinInS, 0) = 3 < 6`, yet
the inner loop performs another neighbourhood step instead of aborting:
no upper-bound test exists in the code. -/
theorem C2_counterexample :
    greedy_random_k trivialOps g5 4 () = some (sol4, ()) ∧
    (innerStep trivialOps g5 pOne innerC2).isCont = true ∧
    oneSwapUB g5 ((innerStep trivialOps g5 pOne innerC2).contState innerC2).cur <
      requiredEdges pOne.gamma_target 4 ∧
    (innerStep trivialOps g5 pOne
      ((innerStep trivialOps g5 pOne innerC2).contState innerC2)).isCont = true := by
  refine ⟨by decide, by decide, by decide, by decide⟩

theorem diversifyCont_ne_brk {ρ : Type} (O : RngOps ρ) (g : Graph) (p : Params)
    (cur : Solution) (tabu : DualTabu) (freq : List ℕ) (runBest : Solution)
    (runBestD : ℚ) (totalIt : ℕ) (r : ρ) (st1 : Inner ρ) :
    diversifyCont O g p cur tabu freq runBest runBestD totalIt r ≠ .brk st1 := by
  unfold diversifyCont
  by_cases hbb : (O.genBool p.heavy_prob r).1 = true
  · rw [if_pos hbb]
    rcases hp : heavy_perturbation O g p cur tabu freq (O.genBool p.heavy_prob r).2 with
      _ | ⟨c1, t1, f1, r1⟩
    · simp only [hp]
      intro hc
      cases hc
    · simp only [hp]
      by_cases hm : p.max_iter ≤ totalIt + 1
      · rw [if_pos hm]
        intro hc
        cases hc
      · rw [if_neg hm]
        intro hc
        cases hc
  · rw [if_neg hbb]
    rcases hp : mild_perturbation O g p cur tabu freq (O.genBool p.heavy_prob r).2 with
      _ | ⟨c1, t1, f1, r1⟩
    · simp only [hp]
      intro hc
      cases hc
    · simp only [hp]
      by_cases hm : p.max_iter ≤ totalIt + 1
      · rw [if_pos hm]
        intro hc
        cases hc
      · rw [if_neg hm]
        intro hc
        cases hc

/-- C2 (amended): `solve_fixed_k`'s inner loop computes no one-swap upper
bound at all; it falls through to the restart logic (`break`) exactly
when `improve_once` performs no swap and the incremented stagnation
counter is still below the stagnation limit.  No abort condition mentions
`UB` or `⌈γ·k(k−1)/2⌉`. -/
theorem C2_break_iff :
    ∀ (ρ : Type) (O : RngOps ρ) (g : Graph) (p : Params) (st : Inner ρ),
    (∃ st1, innerStep O g p st = .brk st1) ↔
      ((improve_once O g p st.cur st.tabu st.runBestD st.freq st.rng).1 = false ∧
       st.stagn + 1 < p.stagnation_iter) := by
  intro ρ O g p st
  unfold innerStep
  rcases hres : improve_once O g p st.cur st.tabu st.runBestD st.freq st.rng with
    ⟨moved, sol1, tabu1, freq1, r1⟩
  simp only [hres]
  by_cases hm : moved = true
  · subst hm
    rw [if_pos rfl]
    constructor
    · intro ⟨st1, hst1⟩
      by_cases h1 : p.gamma_target ≤ sol1.densityQ + epsQ
      · rw [if_pos h1] at hst1
        cases hst1
      · rw [if_neg h1] at hst1
        by_cases h2 : p.max_iter ≤ st.totalIt + 1
        · rw [if_pos h2] at hst1
          cases hst1
        · rw [if_neg h2] at hst1
          by_cases h3 : (runBestUpd st.runBest st.runBestD st.stagn sol1).2.2 <
              p.stagnation_iter
          · rw [if_pos h3] at hst1
            cases hst1
          · rw [if_neg h3] at hst1
            exact absurd hst1 (diversifyCont_ne_brk _ _ _ _ _ _ _ _ _ _ _)
    · intro ⟨hfalse, _⟩
      cases hfalse
  · have hmf : moved = false := by
      cases moved
      · rfl
      · exact absurd rfl hm
    subst hmf
    rw [if_neg (by simp)]
    by_cases h1 : p.stagnation_iter ≤ st.stagn + 1
    · rw [if_pos h1]
      constructor
      · intro ⟨st1, hst1⟩
        exact absurd hst1 (diversifyCont_ne_brk _ _ _ _ _ _ _ _ _ _ _)
      · intro ⟨_, h2⟩
        omega
    · rw [if_neg h1]
      constructor
      · intro _
        exact ⟨rfl, by omega⟩
      · intro _
        exact ⟨_, rfl⟩

/-! ### Claim C5 — degree-based impossibility pruning in `solve_maxk` -/

/-- C5: the max-k loop never invokes the fixed-k solver at a size `k`
with `UB_edges(k) < ⌈γ·k(k−1)/2⌉` (first conjunct: every entry of the
invocation trace satisfies the bound), and at such a `k` it terminates
the ascent when `k` exceeds the current best's size and otherwise skips
straight to `k+1` without running the solver (second conjunct). -/
theorem C5_ub_pruning :
    ∀ (ρ : Type) (O : RngOps ρ) (g : Graph) (p : Params) (pref : List ℕ)
      (fo fi : ℕ),
    (∀ (fuel k : ℕ) (best : Solution) (r : ρ) (res : Solution × ρ × List ℕ),
      maxkGo O g p pref fo fi fuel k best r = some res →
      ∀ j ∈ res.2.2, requiredEdges p.gamma_target j ≤ ubEdges pref j) ∧
    (∀ (fuel k : ℕ) (best : Solution) (r : ρ),
      ubEdges pref k < requiredEdges p.gamma_target k → k ≠ best.size →
      k ≤ g.n →
      (best.size < k →
        maxkGo O g p pref fo fi (fuel + 1) k best r = some (best, r, [])) ∧
      (¬best.size < k →
        maxkGo O g p pref fo fi (fuel + 1) k best r =
          maxkGo O g p pref fo fi fuel (k + 1) best r)) := by
  intro ρ O g p pref fo fi
  constructor
  · intro fuel
    induction fuel with
    | zero =>
      intro k best r res h
      simp only [maxkGo] at h
      cases h
    | succ n ih =>
      intro k best r res h
      simp only [maxkGo] at h
      by_cases h1 : g.n < k
      · rw [if_pos h1] at h
        cases h
        intro j hj
        cases hj
      · rw [if_neg h1] at h
        by_cases h2 : k = best.size
        · rw [if_pos h2] at h
          exact ih _ _ _ _ h
        · rw [if_neg h2] at h
          by_cases h3 : ubEdges pref k < requiredEdges p.gamma_target k
          · rw [if_pos h3] at h
            by_cases h4 : best.size < k
            · rw [if_pos h4] at h
              cases h
              intro j hj
              cases hj
            · rw [if_neg h4] at h
              exact ih _ _ _ _ h
          · rw [if_neg h3] at h
            rcases hfk : solve_fixed_k O g k p fo fi r with _ | ⟨solk, r1⟩
            · rw [hfk] at h
              cases h
            · rw [hfk] at h
              simp only at h
              by_cases h5 : p.gamma_target ≤ solk.densityQ + epsQ
              · rw [if_pos h5] at h
                rcases hmap : maxkGo O g p pref fo fi n (k + 1) solk r1 with _ | t
                · rw [hmap] at h
                  cases h
                · rw [hmap] at h
                  cases h
                  intro j hj
                  rcases List.mem_cons.1 hj with hj1 | hj2
                  · subst hj1
                    omega
                  · exact ih _ _ _ _ hmap j hj2
              · rw [if_neg h5] at h
                by_cases h6 : best.size < k
                · rw [if_pos h6] at h
                  cases h
                  intro j hj
                  rcases List.mem_cons.1 hj with hj1 | hj2
                  · subst hj1
                    omega
                  · cases hj2
                · rw [if_neg h6] at h
                  rcases hmap : maxkGo O g p pref fo fi n (k + 1) best r1 with _ | t
                  · rw [hmap] at h
                    cases h
                  · rw [hmap] at h
                    cases h
                    intro j hj
                    rcases List.mem_cons.1 hj with hj1 | hj2
                    · subst hj1
                      omega
                    · exact ih _ _ _ _ hmap j hj2
  · intro fuel k best r hub hne hkn
    constructor
    · intro hlt
      simp only [maxkGo]
      rw [if_neg (by omega), if_neg hne, if_pos hub, if_pos hlt]
    · intro hge
      simp only [maxkGo]
      rw [if_neg (by omega), if_neg hne, if_pos hub, if_neg hge]

unseal Rat.add Rat.mul Rat.sub Rat.inv in
/-- C5 (witness): the pruning theorem applied to a concrete trace on the
triangle (both invoked sizes 2 and 3 satisfy the bound) and to a
concrete pruned step on the edgeless 2-vertex graph (`UB_edges(2) = 0 <
1 = required`, best of size 0, so the ascent stops, returning the best). -/
theorem C5_witness :
    (∀ j ∈ [2, 3], requiredEdges pOne.gamma_target j ≤ ubEdges [0, 2, 4, 6] j) ∧
    maxkGo trivialOps g2e pOne [0, 0, 0] 1 1 4 2 (Solution.empty 2) () =
      some (Solution.empty 2, (), []) :=
  ⟨(C5_ub_pruning Unit trivialOps g3 pOne [0, 2, 4, 6] 1 1).1 3 2
      (Solution.empty 3) () (⟨[true, true, true], 3, 3⟩, (), [2, 3]) (by decide),
   ((C5_ub_pruning Unit trivialOps g2e pOne [0, 0, 0] 1 1).2 3 2
      (Solution.empty 2) () (by decide) (by decide) (by decide)).1 (by decide)⟩

/-! ### Claim C7 — determinism under identical seeds -/

/-- C7: for every graph, size, target and parameter set, two runs of
`solve_fixed_k` (and of `solve_maxk`) from identical rng states return
identical solutions — same membership bitmap, same cached size, same
cached edge count.  In this embedding every source of randomness is the
explicit rng state threaded through `RngOps`, so equal seeds give
syntactically equal runs; the conclusion spells out the three components
the claim names. -/
theorem C7_determinism :
    ∀ (ρ : Type) (O : RngOps ρ) (g : Graph) (k : ℕ) (p : Params)
      (fo fi : ℕ) (r1 r2 : ρ), r1 = r2 →
    (∀ a b, solve_fixed_k O g k p fo fi r1 = some a →
      solve_fixed_k O g k p fo fi r2 = some b →
      a.1.verts = b.1.verts ∧ a.1.size = b.1.size ∧
        a.1.edge_count = b.1.edge_count) ∧
    (∀ a b, solve_maxk O g p fo fi r1 = some a →
      solve_maxk O g p fo fi r2 = some b →
      a.1.verts = b.1.verts ∧ a.1.size = b.1.size ∧
        a.1.edge_count = b.1.edge_count) := by
  intro ρ O g k p fo fi r1 r2 h
  subst h
  constructor
  · intro a b ha hb
    rw [ha] at hb
    cases hb
    exact ⟨rfl, rfl, rfl⟩
  · intro a b ha hb
    rw [ha] at hb
    cases hb
    exact ⟨rfl, rfl, rfl⟩

unseal Rat.add Rat.mul Rat.sub Rat.inv in
/-- C7 (witness): the determinism theorem applied to the concrete run
`solve_fixed_k trivialOps g3 3 pOne` (which returns the triangle). -/
theorem C7_witness :
    (⟨[true, true, true], 3, 3⟩ : Solution).verts =
      (⟨[true, true, true], 3, 3⟩ : Solution).verts ∧
    (⟨[true, true, true], 3, 3⟩ : Solution).size =
      (⟨[true, true, true], 3, 3⟩ : Solution).size ∧
    (⟨[true, true, true], 3, 3⟩ : Solution).edge_count =
      (⟨[true, true, true], 3, 3⟩ : Solution).edge_count :=
  (C7_determinism Unit trivialOps g3 3 pOne 1 1 () () rfl).1
    (⟨[true, true, true], 3, 3⟩, ()) (⟨[true, true, true], 3, 3⟩, ())
    (by decide) (by decide)

/-! ### Size preservation of the moves (towards claim C10) -/

theorem improve_once_wf {ρ : Type} (O : RngOps ρ) (g : Graph) (p : Params)
    (sol : Solution) (tabu : DualTabu) (gbd : ℚ) (freq : List ℕ) (r : ρ)
    (hwf : sol.wf g) :
    ((improve_once O g p sol tabu gbd freq r).2.1).wf g ∧
    (improve_once O g p sol tabu gbd freq r).2.1.size = sol.size := by
  unfold improve_once
  by_cases hemp : (criticalVertices g sol).isEmpty = true
  · rw [if_pos hemp]
    exact ⟨hwf, by trivial⟩
  · rw [if_neg hemp]
    rcases hcs : chooseSwap g sol tabu gbd with _ | ⟨u, w⟩
    · simp only [hcs]
      exact ⟨hwf, by trivial⟩
    · simp only [hcs]
      obtain ⟨hmem, _⟩ := chooseSwap_spec hcs
      obtain ⟨h1, _, h3, h4, _⟩ := candPairs_mem hmem
      obtain ⟨hwf2, hsz⟩ := swap_wf hwf h1 h3 h4
      exact ⟨hwf2, hsz⟩

theorem mem_filter_range_memB {g : Graph} {sol : Solution} {u : ℕ}
    (h : u ∈ (List.range g.n).filter (fun v => sol.memB v)) :
    sol.memB u = true :=
  (List.mem_filter.1 h).2

theorem mem_filter_range_not_memB {g : Graph} {sol : Solution} {u : ℕ}
    (h : u ∈ (List.range g.n).filter (fun v => !sol.memB v)) :
    sol.memB u = false ∧ u < g.n := by
  obtain ⟨h1, h2⟩ := List.mem_filter.1 h
  refine ⟨?_, List.mem_range.1 h1⟩
  simpa using h2

theorem heavy_wf {ρ : Type} {O : RngOps ρ} (laws : RngLaws O) {g : Graph}
    {p : Params} {sol : Solution} {tabu : DualTabu} {freq : List ℕ} {r : ρ}
    {out : Solution × DualTabu × List ℕ × ρ}
    (hwf : sol.wf g)
    (h : heavy_perturbation O g p sol tabu freq r = some out) :
    out.1.wf g ∧ out.1.size = sol.size := by
  simp only [heavy_perturbation] at h
  split at h
  · cases h
    exact ⟨hwf, by trivial⟩
  · split at h
    · cases h
    · rename_i u tail hsh
      have humem : sol.memB u = true := by
        have h1 : u ∈ (O.shuffle ((List.range g.n).filter (fun v => sol.memB v)) r).1 := by
          rw [hsh]
          exact List.mem_cons_self u tail
        have h2 := (laws.shuffle_perm _ r).mem_iff.1 h1
        exact mem_filter_range_memB h2
      obtain ⟨hwf1, hsz1, hpos⟩ := remove_wf hwf humem
      split at h
      · cases h
      · split at h
        · cases h
        · rename_i v hv
          cases h
          have hvin : v ∈ (O.shuffle ((List.range g.n).filter
              (fun w => !(sol.remove g u).memB w))
              (O.shuffle ((List.range g.n).filter (fun w => sol.memB w)) r).2).1 := by
            rcases hfind : ((O.shuffle ((List.range g.n).filter
                (fun w => !(sol.remove g u).memB w))
                (O.shuffle ((List.range g.n).filter (fun w => sol.memB w)) r).2).1).find?
                (fun w => decide (degInS g (sol.remove g u) w < heavyThreshold g sol.size)) with
              _ | w0
            · rw [hfind] at hv
              exact minByKeyFirst_mem hv
            · rw [hfind] at hv
              cases hv
              exact List.mem_of_find?_eq_some hfind
          have h2 := (laws.shuffle_perm _ _).mem_iff.1 hvin
          have hvmem := mem_filter_range_not_memB h2
          obtain ⟨hwf2, hsz2⟩ := add_wf hwf1 hvmem.2 hvmem.1
          refine ⟨hwf2, ?_⟩
          rw [hsz2, hsz1]
          omega

theorem mild_wf {ρ : Type} {O : RngOps ρ} (laws : RngLaws O) {g : Graph}
    {p : Params} {sol : Solution} {tabu : DualTabu} {freq : List ℕ} {r : ρ}
    {out : Solution × DualTabu × List ℕ × ρ}
    (hwf : sol.wf g)
    (h : mild_perturbation O g p sol tabu freq r = some out) :
    out.1.wf g ∧ out.1.size = sol.size := by
  simp only [mild_perturbation] at h
  split at h
  · cases h
    exact ⟨hwf, by trivial⟩
  · split at h
    · cases h
    · rename_i u hu
      have humem : sol.memB u = true := by
        rcases hw : minByKeyFirst (fun x => degInS g sol x)
            (((List.range g.n).filter (fun v => sol.memB v)).filter
              (fun x => decide (degInS g sol x < critThr sol))) with _ | w0
        · rw [hw] at hu
          exact mem_filter_range_memB (minByKeyFirst_mem hu)
        · rw [hw] at hu
          cases hu
          exact mem_filter_range_memB (List.mem_filter.1 (minByKeyFirst_mem hw)).1
      obtain ⟨hwf1, hsz1, hpos⟩ := remove_wf hwf humem
      split at h
      · cases h
      · rename_i v tail hsh
        cases h
        have hvin : v ∈ (O.shuffle (((List.range g.n).filter
            (fun w => !(sol.remove g u).memB w)).filter
            (fun w => degInS g (sol.remove g u) w ==
              (((List.range g.n).filter (fun w => !(sol.remove g u).memB w)).map
                (fun w => degInS g (sol.remove g u) w)).foldl max 0)) r).1 := by
          rw [hsh]
          exact List.mem_cons_self v tail
        have h2 := (laws.shuffle_perm _ r).mem_iff.1 hvin
        have hvmem := mem_filter_range_not_memB (List.mem_filter.1 h2).1
        obtain ⟨hwf2, hsz2⟩ := add_wf hwf1 hvmem.2 hvmem.1
        refine ⟨hwf2, ?_⟩
        rw [hsz2, hsz1]
        omega

theorem diversifyCont_inv {ρ : Type} {O : RngOps ρ} (laws : RngLaws O)
    {g : Graph} {p : Params} {k : ℕ} {cur : Solution} {tabu : DualTabu}
    {freq : List ℕ} {runBest : Solution} {runBestD : ℚ} {totalIt : ℕ} {r : ρ}
    (hcur : cur.wf g ∧ cur.size = k) (hrb : runBest.wf g ∧ runBest.size = k) :
    ∀ st1, diversifyCont O g p cur tabu freq runBest runBestD totalIt r = .cont st1 →
      (st1.cur.wf g ∧ st1.cur.size = k) ∧
      (st1.runBest.wf g ∧ st1.runBest.size = k) := by
  intro st1 hst1
  unfold diversifyCont at hst1
  by_cases hbb : (O.genBool p.heavy_prob r).1 = true
  · rw [if_pos hbb] at hst1
    rcases hp : heavy_perturbation O g p cur tabu freq (O.genBool p.heavy_prob r).2 with
      _ | ⟨c1, t1, f1, r1⟩
    · rw [hp] at hst1
      cases hst1
    · simp only [hp] at hst1
      obtain ⟨hwf1, hsz1⟩ := heavy_wf laws hcur.1 hp
      by_cases hm : p.max_iter ≤ totalIt + 1
      · rw [if_pos hm] at hst1
        cases hst1
      · rw [if_neg hm] at hst1
        cases hst1
        exact ⟨⟨hwf1, by rw [hsz1]; exact hcur.2⟩, hrb⟩
  · rw [if_neg hbb] at hst1
    rcases hp : mild_perturbation O g p cur tabu freq (O.genBool p.heavy_prob r).2 with
      _ | ⟨c1, t1, f1, r1⟩
    · rw [hp] at hst1
      cases hst1
    · simp only [hp] at hst1
      obtain ⟨hwf1, hsz1⟩ := mild_wf laws hcur.1 hp
      by_cases hm : p.max_iter ≤ totalIt + 1
      · rw [if_pos hm] at hst1
        cases hst1
      · rw [if_neg hm] at hst1
        cases hst1
        exact ⟨⟨hwf1, by rw [hsz1]; exact hcur.2⟩, hrb⟩

theorem diversifyCont_ne_retCur {ρ : Type} (O : RngOps ρ) (g : Graph) (p : Params)
    (cur : Solution) (tabu : DualTabu) (freq : List ℕ) (runBest : Solution)
    (runBestD : ℚ) (totalIt : ℕ) (r : ρ) (sol : Solution) (r2 : ρ) :
    diversifyCont O g p cur tabu freq runBest runBestD totalIt r ≠ .retCur sol r2 := by
  unfold diversifyCont
  by_cases hbb : (O.genBool p.heavy_prob r).1 = true
  · rw [if_pos hbb]
    rcases hp : heavy_perturbation O g p cur tabu freq (O.genBool p.heavy_prob r).2 with
      _ | ⟨c1, t1, f1, r1⟩
    · simp only [hp]
      intro hc
      cases hc
    · simp only [hp]
      by_cases hm : p.max_iter ≤ totalIt + 1
      · rw [if_pos hm]
        intro hc
        cases hc
      · rw [if_neg hm]
        intro hc
        cases hc
  · rw [if_neg hbb]
    rcases hp : mild_perturbation O g p cur tabu freq (O.genBool p.heavy_prob r).2 with
      _ | ⟨c1, t1, f1, r1⟩
    · simp only [hp]
      intro hc
      cases hc
    · simp only [hp]
      by_cases hm : p.max_iter ≤ totalIt + 1
      · rw [if_pos hm]
        intro hc
        cases hc
      · rw [if_neg hm]
        intro hc
        cases hc

theorem innerStep_inv {ρ : Type} {O : RngOps ρ} (laws : RngLaws O)
    (g : Graph) (p : Params) {k : ℕ} {st : Inner ρ}
    (hst : (st.cur.wf g ∧ st.cur.size = k) ∧
      (st.runBest.wf g ∧ st.runBest.size = k)) :
    (∀ sol r1, innerStep O g p st = .retCur sol r1 → sol.wf g ∧ sol.size = k) ∧
    (∀ st1, innerStep O g p st = .cont st1 →
      (st1.cur.wf g ∧ st1.cur.size = k) ∧
      (st1.runBest.wf g ∧ st1.runBest.size = k)) ∧
    (∀ st1, innerStep O g p st = .brk st1 →
      (st1.cur.wf g ∧ st1.cur.size = k) ∧
      (st1.runBest.wf g ∧ st1.runBest.size = k)) := by
  unfold innerStep
  rcases hres : improve_once O g p st.cur st.tabu st.runBestD st.freq st.rng with
    ⟨moved, sol1, tabu1, freq1, r1⟩
  have hio := improve_once_wf O g p st.cur st.tabu st.runBestD st.freq st.rng hst.1.1
  rw [hres] at hio
  have hsol1 : sol1.wf g ∧ sol1.size = k := ⟨hio.1, by
    have h2 := hio.2
    simp only at h2
    rw [h2]
    exact hst.1.2⟩
  have hrbU : (runBestUpd st.runBest st.runBestD st.stagn sol1).1.wf g ∧
      (runBestUpd st.runBest st.runBestD st.stagn sol1).1.size = k := by
    unfold runBestUpd
    by_cases hc : st.runBestD < sol1.densityQ
    · rw [if_pos hc]
      exact hsol1
    · rw [if_neg hc]
      exact hst.2
  simp only [hres]
  by_cases hm : moved = true
  · subst hm
    rw [if_pos rfl]
    by_cases h1 : p.gamma_target ≤ sol1.densityQ + epsQ
    · rw [if_pos h1]
      refine ⟨?_, ?_, ?_⟩
      · intro sol r2 heq
        cases heq
        exact hsol1
      · intro st1 heq
        cases heq
      · intro st1 heq
        cases heq
    · rw [if_neg h1]
      by_cases h2 : p.max_iter ≤ st.totalIt + 1
      · rw [if_pos h2]
        refine ⟨?_, ?_, ?_⟩
        · intro sol r2 heq
          cases heq
        · intro st1 heq
          cases heq
        · intro st1 heq
          cases heq
      · rw [if_neg h2]
        by_cases h3 : (runBestUpd st.runBest st.runBestD st.stagn sol1).2.2 <
            p.stagnation_iter
        · rw [if_pos h3]
          refine ⟨?_, ?_, ?_⟩
          · intro sol r2 heq
            cases heq
          · intro st1 heq
            cases heq
            exact ⟨hsol1, hrbU⟩
          · intro st1 heq
            cases heq
        · rw [if_neg h3]
          refine ⟨?_, ?_, ?_⟩
          · intro sol r2 heq
            exact absurd heq (diversifyCont_ne_retCur _ _ _ _ _ _ _ _ _ _ _ _)
          · intro st1 heq
            exact diversifyCont_inv laws hsol1 hrbU st1 heq
          · intro st1 heq
            exact absurd heq (diversifyCont_ne_brk _ _ _ _ _ _ _ _ _ _ _)
  · have hmf : moved = false := by
      cases moved
      · rfl
      · exact absurd rfl hm
    subst hmf
    rw [if_neg (by simp)]
    by_cases h1 : p.stagnation_iter ≤ st.stagn + 1
    · rw [if_pos h1]
      refine ⟨?_, ?_, ?_⟩
      · intro sol r2 heq
        exact absurd heq (diversifyCont_ne_retCur _ _ _ _ _ _ _ _ _ _ _ _)
      · intro st1 heq
        exact diversifyCont_inv laws hst.1 hst.2 st1 heq
      · intro st1 heq
        exact absurd heq (diversifyCont_ne_brk _ _ _ _ _ _ _ _ _ _ _)
    · rw [if_neg h1]
      refine ⟨?_, ?_, ?_⟩
      · intro sol r2 heq
        cases heq
      · intro st1 heq
        cases heq
      · intro st1 heq
        cases heq
        exact ⟨hst.1, hst.2⟩

theorem innerLoop_inv {ρ : Type} {O : RngOps ρ} (laws : RngLaws O)
    {g : Graph} {p : Params} {k : ℕ} :
    ∀ (fuel : ℕ) (st : Inner ρ),
    (st.cur.wf g ∧ st.cur.size = k) ∧ (st.runBest.wf g ∧ st.runBest.size = k) →
    (∀ sol r1, innerLoop O g p fuel st = .retSol sol r1 → sol.wf g ∧ sol.size = k) ∧
    (∀ st1, innerLoop O g p fuel st = .done st1 →
      (st1.cur.wf g ∧ st1.cur.size = k) ∧
      (st1.runBest.wf g ∧ st1.runBest.size = k)) := by
  intro fuel
  induction fuel with
  | zero =>
    intro st hst
    refine ⟨?_, ?_⟩
    · intro sol r1 h
      simp only [innerLoop] at h
      cases h
    · intro st1 h
      simp only [innerLoop] at h
      cases h
  | succ n ih =>
    intro st hst
    obtain ⟨hret, hcont, hbrk⟩ := innerStep_inv laws g p hst
    refine ⟨?_, ?_⟩
    · intro sol r1 h
      simp only [innerLoop] at h
      rcases hstep : innerStep O g p st with ⟨sol2, r2⟩ | ⟨r2⟩ | _ | ⟨st1⟩ | ⟨st1⟩
      · simp only [hstep] at h
        cases h
        exact hret _ _ hstep
      · simp only [hstep] at h
        cases h
      · simp only [hstep] at h
        cases h
      · simp only [hstep] at h
        cases h
      · simp only [hstep] at h
        exact (ih st1 (hcont st1 hstep)).1 sol r1 h
    · intro st1 h
      simp only [innerLoop] at h
      rcases hstep : innerStep O g p st with ⟨sol2, r2⟩ | ⟨r2⟩ | _ | ⟨st2⟩ | ⟨st2⟩
      · simp only [hstep] at h
        cases h
      · simp only [hstep] at h
        cases h
      · simp only [hstep] at h
        cases h
      · simp only [hstep] at h
        cases h
        exact hbrk _ hstep
      · simp only [hstep] at h
        exact (ih st2 (hcont st2 hstep)).2 st1 h

theorem getD_mem_of_lt {l : List ℕ} {i : ℕ} (h : i < l.length) (d : ℕ) :
    l.getD i d ∈ l := by
  rw [List.getD_eq_getElem?_getD, List.getElem?_eq_getElem h]
  exact List.getElem_mem h

theorem empty_memB (n v : ℕ) : (Solution.empty n).memB v = false := by
  show (List.replicate n false).getD v false = false
  rw [List.getD_eq_getElem?_getD, List.getElem?_replicate]
  by_cases hv : v < n
  · rw [if_pos hv]
    rfl
  · rw [if_neg hv]
    rfl

theorem empty_wf (g : Graph) : (Solution.empty g.n).wf g := by
  constructor
  · exact List.length_replicate g.n false
  · show (List.replicate g.n false).count true = 0
    rw [List.count_replicate]
    rfl

theorem grkCandidates_mem {g : Graph} {sol : Solution} :
    ∀ x ∈ (grkCandidates g sol).2, sol.memB x = false ∧ x < g.n := by
  unfold grkCandidates
  have h := foldl_inv
    (P := fun acc : ℕ × List ℕ => ∀ x ∈ acc.2, sol.memB x = false ∧ x < g.n)
    (Q := fun v : ℕ => v ∈ List.range g.n)
    (fun acc v =>
      if sol.memB v then acc
      else
        if degInS g sol v > acc.1 then (degInS g sol v, [v])
        else if degInS g sol v == acc.1 then (acc.1, acc.2 ++ [v])
        else acc)
    ?_ (List.range g.n) (fun b hb => hb) (0, []) ?_
  · exact h
  · intro a b ha hb
    simp only []
    by_cases hm : sol.memB b = true
    · rw [if_pos hm]
      exact ha
    · rw [if_neg hm]
      have hbf : sol.memB b = false := by
        cases hmb : sol.memB b
        · rfl
        · exact absurd hmb hm
      by_cases h1 : degInS g sol b > a.1
      · rw [if_pos h1]
        intro x hx
        rcases List.mem_singleton.1 hx with rfl
        exact ⟨hbf, List.mem_range.1 hb⟩
      · rw [if_neg h1]
        by_cases h2 : (degInS g sol b == a.1) = true
        · rw [if_pos h2]
          intro x hx
          rcases List.mem_append.1 hx with hx1 | hx2
          · exact ha x hx1
          · rcases List.mem_singleton.1 hx2 with rfl
            exact ⟨hbf, List.mem_range.1 hb⟩
        · rw [if_neg h2]
          exact ha
  · intro x hx
    cases hx

theorem grkLoop_size {ρ : Type} {O : RngOps ρ} (laws : RngLaws O)
    (g : Graph) (k : ℕ) :
    ∀ (fuel : ℕ) (sol : Solution) (r : ρ) (out : Solution × ρ),
    sol.wf g → sol.size ≤ k →
    grkLoop O g k fuel sol r = some out → out.1.wf g ∧ out.1.size = k := by
  intro fuel
  induction fuel with
  | zero =>
    intro sol r out hwf hle h
    simp only [grkLoop] at h
    cases h
  | succ n ih =>
    intro sol r out hwf hle h
    simp only [grkLoop] at h
    by_cases hsz : sol.size < k
    · rw [if_pos hsz] at h
      rcases hc : grkCandidates g sol with ⟨best, cand⟩
      rw [hc] at h
      rcases cand with _ | ⟨c, cs⟩
      · cases h
      · simp only at h
        have hlen : (O.genRange (c :: cs).length r).1 < (c :: cs).length :=
          laws.genRange_lt _ r (by simp)
        have hv : (c :: cs).getD (O.genRange (c :: cs).length r).1 0 ∈ c :: cs :=
          getD_mem_of_lt hlen 0
        have hvin : ((c :: cs).getD (O.genRange (c :: cs).length r).1 0) ∈
            (grkCandidates g sol).2 := by
          rw [hc]
          exact hv
        obtain ⟨hmf, hlt⟩ := grkCandidates_mem _ hvin
        obtain ⟨hwf1, hsz1⟩ := add_wf hwf hlt hmf
        exact ih _ _ _ hwf1 (by omega) h
    · rw [if_neg hsz] at h
      cases h
      refine ⟨hwf, ?_⟩
      show sol.size = k
      omega

theorem greedy_random_k_size {ρ : Type} {O : RngOps ρ} (laws : RngLaws O)
    (g : Graph) (k : ℕ) (hk1 : 1 ≤ k) (hkn : k ≤ g.n) :
    ∀ (r : ρ) (out : Solution × ρ),
    greedy_random_k O g k r = some out → out.1.wf g ∧ out.1.size = k := by
  intro r out h
  unfold greedy_random_k at h
  rw [if_neg (by omega)] at h
  rw [if_neg (by omega)] at h
  have hseed : (O.genRange g.n r).1 < g.n := laws.genRange_lt _ r (by omega)
  have hmem : (Solution.empty g.n).memB (O.genRange g.n r).1 = false :=
    empty_memB g.n _
  obtain ⟨hwf1, hsz1⟩ := add_wf (empty_wf g) hseed hmem
  exact grkLoop_size laws g k _ _ _ _ hwf1 (by
    rw [hsz1]
    show Nat.succ (Solution.empty g.n).size ≤ k
    have : (Solution.empty g.n).size = 0 := rfl
    omega) h

theorem rebuildLoop_size {ρ : Type} {O : RngOps ρ} (laws : RngLaws O)
    (g : Graph) (k : ℕ) (freq : List ℕ) (hkn : k ≤ g.n) :
    ∀ (fuel : ℕ) (sol : Solution) (r : ρ) (out : Solution × ρ),
    sol.wf g → sol.size ≤ k →
    rebuildLoop O g k freq fuel sol r = some out → out.1.wf g ∧ out.1.size = k := by
  intro fuel
  induction fuel with
  | zero =>
    intro sol r out hwf hle h
    simp only [rebuildLoop] at h
    cases h
  | succ n ih =>
    intro sol r out hwf hle h
    simp only [rebuildLoop] at h
    by_cases hsz : sol.size < k
    · rw [if_pos hsz] at h
      have houts : ∃ v, v ∈ (List.range g.n).filter (fun w => !sol.memB w) := by
        have hcnt : sol.verts.count true < sol.verts.length := by
          rw [hwf.2, hwf.1]
          omega
        obtain ⟨v, hvlen, hvf⟩ := exists_false_of_count_lt hcnt
        refine ⟨v, List.mem_filter.2 ⟨List.mem_range.2 ?_, ?_⟩⟩
        · rw [← hwf.1]
          exact hvlen
        · show (!sol.memB v) = true
          show (!sol.verts.getD v false) = true
          rw [hvf]
          rfl
      obtain ⟨v0, hv0⟩ := houts
      rcases hbd : ((List.range g.n).filter (fun w => !sol.memB w)).filter
          (fun w => !decide (g.degree w <
            (((List.range g.n).filter (fun w => !sol.memB w)).map g.degree).foldl max 0)) with
        _ | ⟨b, bs⟩
      · exfalso
        rcases foldl_max_eq_or_mem
            (((List.range g.n).filter (fun w => !sol.memB w)).map g.degree) 0 with hz | hin
        · have : v0 ∈ ((List.range g.n).filter (fun w => !sol.memB w)).filter
              (fun w => !decide (g.degree w <
                (((List.range g.n).filter (fun w => !sol.memB w)).map g.degree).foldl max 0)) := by
            refine List.mem_filter.2 ⟨hv0, ?_⟩
            rw [hz]
            simp
          rw [hbd] at this
          cases this
        · obtain ⟨w0, hw0m, hw0d⟩ := List.mem_map.1 hin
          have : w0 ∈ ((List.range g.n).filter (fun w => !sol.memB w)).filter
              (fun w => !decide (g.degree w <
                (((List.range g.n).filter (fun w => !sol.memB w)).map g.degree).foldl max 0)) := by
            refine List.mem_filter.2 ⟨hw0m, ?_⟩
            rw [hw0d]
            simp
          rw [hbd] at this
          cases this
      · rw [hbd] at h
        simp only at h
        rcases hsh : (O.shuffle ((b :: bs).filter (fun v => freq.getD v 0 ==
            (bs.map (fun v => freq.getD v 0)).foldl min (freq.getD b 0))) r).1 with
          _ | ⟨c, cs⟩
        · rw [hsh] at h
          cases h
        · rw [hsh] at h
          have hcmem : c ∈ (b :: bs).filter (fun v => freq.getD v 0 ==
              (bs.map (fun v => freq.getD v 0)).foldl min (freq.getD b 0)) := by
            have h1 : c ∈ (O.shuffle ((b :: bs).filter (fun v => freq.getD v 0 ==
                (bs.map (fun v => freq.getD v 0)).foldl min (freq.getD b 0))) r).1 := by
              rw [hsh]
              exact List.mem_cons_self c cs
            exact (laws.shuffle_perm _ r).mem_iff.1 h1
          have hcbd : c ∈ (List.range g.n).filter (fun w => !sol.memB w) := by
            have h2 := (List.mem_filter.1 hcmem).1
            have h3 : c ∈ ((List.range g.n).filter (fun w => !sol.memB w)).filter
                (fun w => !decide (g.degree w <
                  (((List.range g.n).filter (fun w => !sol.memB w)).map g.degree).foldl max 0)) := by
              rw [hbd]
              exact h2
            exact (List.mem_filter.1 h3).1
          obtain ⟨hmf, hlt⟩ := mem_filter_range_not_memB hcbd
          obtain ⟨hwf1, hsz1⟩ := add_wf hwf hlt hmf
          exact ih _ _ _ hwf1 (by omega) h
    · rw [if_neg hsz] at h
      cases h
      refine ⟨hwf, ?_⟩
      show sol.size = k
      omega

theorem outerLoop_size {ρ : Type} {O : RngOps ρ} (laws : RngLaws O)
    (g : Graph) (k : ℕ) (p : Params) (hk1 : 1 ≤ k) (hkn : k ≤ g.n) :
    ∀ (fo fi : ℕ) (bestSol gBest : Solution) (gBestD : ℚ) (freq : List ℕ)
      (totalIt : ℕ) (r : ρ) (out : Solution × ρ),
    bestSol.wf g → bestSol.size = k → gBest.wf g → gBest.size = k →
    outerLoop O g k p fo fi bestSol gBest gBestD freq totalIt r = some out →
    out.1.wf g ∧ out.1.size = k := by
  intro fo
  induction fo with
  | zero =>
    intro fi bestSol gBest gBestD freq totalIt r out hb1 hb2 hg1 hg2 h
    simp only [outerLoop] at h
    cases h
  | succ n ih =>
    intro fi bestSol gBest gBestD freq totalIt r out hb1 hb2 hg1 hg2 h
    simp only [outerLoop] at h
    have hstinv : (bestSol.wf g ∧ bestSol.size = k) ∧
        (bestSol.wf g ∧ bestSol.size = k) := ⟨⟨hb1, hb2⟩, ⟨hb1, hb2⟩⟩
    rcases hil : innerLoop O g p fi
        ⟨bestSol,
          ((DualTabu.new g.n p.tenure_u p.tenure_v).update_tenures O bestSol.size
            bestSol.edge_count p.gamma_target r).1,
          freq, bestSol, bestSol.densityQ, 0, totalIt,
          ((DualTabu.new g.n p.tenure_u p.tenure_v).update_tenures O bestSol.size
            bestSol.edge_count p.gamma_target r).2⟩ with
      ⟨sol, r1⟩ | ⟨r1⟩ | _ | _ | ⟨stD⟩
    · rw [hil] at h
      cases h
      exact (innerLoop_inv laws fi _ hstinv).1 sol r1 hil
    · rw [hil] at h
      cases h
      exact ⟨hg1, hg2⟩
    · rw [hil] at h
      cases h
    · rw [hil] at h
      cases h
    · simp only [hil] at h
      have hstD := (innerLoop_inv laws fi _ hstinv).2 stD hil
      have hgb : ((if gBestD < stD.runBestD then (stD.runBest, stD.runBestD)
          else (gBest, gBestD)).1.wf g) ∧
          (if gBestD < stD.runBestD then (stD.runBest, stD.runBestD)
          else (gBest, gBestD)).1.size = k := by
        by_cases hc : gBestD < stD.runBestD
        · rw [if_pos hc]
          exact hstD.2
        · rw [if_neg hc]
          exact ⟨hg1, hg2⟩
      by_cases hmi : p.max_iter ≤ stD.totalIt
      · rw [if_pos hmi] at h
        cases h
        exact hgb
      · rw [if_neg hmi] at h
        rcases hfq : stD.freq with _ | ⟨f0, fs⟩
        · simp only [hfq] at h
          cases h
        · simp only [hfq] at h
          rcases hsh : (O.shuffle ((List.range g.n).filter
              (fun v => (f0 :: fs).getD v 0 == fs.foldl min f0)) stD.rng).1 with
            _ | ⟨first, rest⟩
          · simp only [hsh] at h
            cases h
          · simp only [hsh] at h
            have hfirst : first < g.n := by
              have h1 : first ∈ (O.shuffle ((List.range g.n).filter
                  (fun v => (f0 :: fs).getD v 0 == fs.foldl min f0)) stD.rng).1 := by
                rw [hsh]
                exact List.mem_cons_self first rest
              have h2 := (laws.shuffle_perm _ _).mem_iff.1 h1
              exact List.mem_range.1 (List.mem_filter.1 h2).1
            obtain ⟨hwf0, hsz0⟩ :=
              add_wf (empty_wf g) hfirst (empty_memB g.n first)
            rcases hrb : rebuildLoop O g k (f0 :: fs) (k + 1)
                ((Solution.empty g.n).add g first)
                (O.shuffle ((List.range g.n).filter
                  (fun v => (f0 :: fs).getD v 0 == fs.foldl min f0)) stD.rng).2 with
              _ | ⟨newSol, r2⟩
            · simp only [hrb] at h
              cases h
            · simp only [hrb] at h
              have hnew := rebuildLoop_size laws g k (f0 :: fs) hkn (k + 1) _ _ _
                hwf0 (by
                  rw [hsz0]
                  show Nat.succ (Solution.empty g.n).size ≤ k
                  have hz : (Solution.empty g.n).size = 0 := rfl
                  omega) hrb
              by_cases hfe : p.gamma_target ≤ newSol.densityQ + epsQ
              · rw [if_pos hfe] at h
                cases h
                exact hnew
              · rw [if_neg hfe] at h
                exact ih fi newSol _ _ _ _ _ out hnew.1 hnew.2 hgb.1 hgb.2 h

theorem trivialLaws : RngLaws trivialOps :=
  ⟨fun _ _ h => h, fun l _ => List.Perm.refl l⟩

/-- C10: for every graph with `n ≥ 1`, every `1 ≤ k ≤ n`, every parameter
set and every well-behaved random source, whenever `solve_fixed_k`
returns a solution, that solution contains exactly `k` vertices: both the
cached size and the popcount of the membership bitmap equal `k`, on every
return path (initial greedy-random construction, feasible early returns,
iteration-cap returns, and every restart). -/
theorem C10_solution_size :
    ∀ (ρ : Type) (O : RngOps ρ), RngLaws O →
    ∀ (g : Graph) (k : ℕ) (p : Params) (fo fi : ℕ) (r : ρ)
      (out : Solution × ρ),
    1 ≤ k → k ≤ g.n →
    solve_fixed_k O g k p fo fi r = some out →
    out.1.size = k ∧ out.1.verts.count true = k := by
  intro ρ O laws g k p fo fi r out hk1 hkn h
  unfold solve_fixed_k at h
  rcases hg : greedy_random_k O g k r with _ | ⟨bestSol, r1⟩
  · rw [hg] at h
    cases h
  · simp only [hg] at h
    have hb := greedy_random_k_size laws g k hk1 hkn r (bestSol, r1) hg
    have hbwf : bestSol.wf g := hb.1
    have hbsz : bestSol.size = k := hb.2
    by_cases hfe : p.gamma_target ≤ bestSol.densityQ + epsQ
    · rw [if_pos hfe] at h
      cases h
      refine ⟨hbsz, ?_⟩
      show bestSol.verts.count true = k
      rw [hbwf.2, hbsz]
    · rw [if_neg hfe] at h
      have hout := outerLoop_size laws g k p hk1 hkn fo fi bestSol bestSol
        bestSol.densityQ (List.replicate g.n 0) 0 r1 out hbwf hbsz hbwf hbsz h
      exact ⟨hout.2, by rw [hout.1.2, hout.2]⟩

unseal Rat.add Rat.mul Rat.sub Rat.inv in
/-- C10 (witness): the theorem applied to the concrete run
`solve_fixed_k trivialOps g3 3 pOne`, which returns the full triangle. -/
theorem C10_witness :
    (⟨[true, true, true], 3, 3⟩ : Solution).size = 3 ∧
    (⟨[true, true, true], 3, 3⟩ : Solution).verts.count true = 3 :=
  C10_solution_size Unit trivialOps trivialLaws g3 3 pOne 1 1 ()
    (⟨[true, true, true], 3, 3⟩, ()) (by decide) (by decide) (by decide)

end TSQC
